import Mathlib

/-!
Verification of the ASGarD distribution / chunking / message-schedule layer.

The definitions below are shallow embeddings of the C++ sources:
  * `src/tasking.cpp` (chunking: `get_element_size_MB`, `get_num_tasks`,
    `assign_elements_to_tasks`),
  * `src/distribution.cpp` (`num_effective_ranks`, `get_subgrid`, `get_plan`,
    `find_column_dependencies`, `round_robin_wheel`, `dependencies_to_messages`,
    `generate_messages`),
  * `src/transformations.cpp` (`kron_matrix_MB`, the assertion in
    `wavelet_to_realspace`).

Machine integers of the source (`int`, `int64_t`) are modelled as `Nat`/`Int`
(all quantities involved stay far below any overflow boundary in the scenarios
the source admits); `double` arithmetic is modelled exactly over `ℚ`
(the source only uses it for size estimates that are then rounded to whole
integers).  C++ `int64_t` division/remainder truncate toward zero, which is
`Int.tdiv` / `Int.tmod`.
-/

/- ----------------------------------------------------------------
   Chunking layer (src/tasking.cpp)
   ---------------------------------------------------------------- -/

/-- A `task` as constructed in `assign_elements_to_tasks`:
`task(task_start_row, task_end_row, task_start_col, task_end_col)`;
row fields are named `elem_*`, column fields `conn_*` (see their use in
`task_workspace`). -/
structure task where
  elem_start : Int
  elem_end   : Int
  conn_start : Int
  conn_end   : Int
deriving DecidableEq, Repr

/-- `get_element_size_MB` from src/tasking.cpp: per-element-pair workspace
estimate in MB.  `degree`, `num_dims`, `num_terms` come from the PDE,
`psize` is `sizeof(P)`.  The `double` computation is modelled exactly in `ℚ`. -/
def get_element_size_MB (degree num_dims num_terms psize : Nat) : ℚ :=
  let get_MB : Nat → ℚ := fun num_elems => ((num_elems * psize : Nat) : ℚ) / 1000000
  let elem_size : Nat := degree ^ num_dims
  let num_workspaces : Nat := min (num_dims - 1) 2
  let elem_reduction_space_MB := get_MB (num_terms * elem_size)
  let elem_intermediate_space_MB := get_MB (num_workspaces * num_terms * elem_size)
  let elem_xy_space_MB := get_MB elem_size
  elem_reduction_space_MB + elem_intermediate_space_MB + elem_xy_space_MB

/-- `get_num_tasks` from src/tasking.cpp.  `N` is `table.size()`,
`space_per_elem` the value of `get_element_size_MB(pde)`.
`problem_size_per_rank` is `static_cast<int>(std::ceil(problem_size_MB)) / rank_size_MB`
(a truncating integer division); the final snap uses
`std::ceil(psr / num_ranks) * num_ranks`, i.e. Nat ceiling division. -/
def get_num_tasks (N : Nat) (space_per_elem : ℚ) (num_ranks rank_size_MB : Nat) : Nat :=
  let problem_size_MB : ℚ := space_per_elem * ((N * N : Nat) : ℚ)
  let problem_size_per_rank : Nat := (⌈problem_size_MB⌉).toNat / rank_size_MB
  if problem_size_per_rank % num_ranks = 0 then
    problem_size_per_rank
  else
    ((problem_size_per_rank + num_ranks - 1) / num_ranks) * num_ranks

/-- The `assert(num_tasks > 0)` at the head of `assign_elements_to_tasks`. -/
def assign_elements_to_tasks_assert (num_tasks : Nat) : Prop := 0 < num_tasks

/-- `assign_elements_to_tasks` from src/tasking.cpp.  `N` is `table.size()`.
All arithmetic is C++ `int64_t`, i.e. `Int` with truncating division. -/
def assign_elements_to_tasks (N : Nat) (num_tasks : Nat) : List task :=
  let num_elems : Int := (N : Int) * (N : Int)
  let elems_per_task : Int := num_elems.tdiv (num_tasks : Int)
  (List.range num_tasks).map (fun (i : Nat) =>
    let task_start : Int := (i : Int) * elems_per_task
    let task_end : Int := ((i : Int) + 1) * elems_per_task - 1
    ⟨task_start.tdiv (N : Int), task_end.tdiv (N : Int),
     task_start.tmod (N : Int), task_end.tmod (N : Int)⟩)

/-- A task owns element pair `(row, col)` iff the pair's linear index
`row*N + col` lies in the task's flattened span (claim C4's reading of the
greedy row-major split). -/
def task_covers (N : Nat) (t : task) (idx : Int) : Prop :=
  t.elem_start * (N : Int) + t.conn_start ≤ idx ∧
    idx ≤ t.elem_end * (N : Int) + t.conn_end

instance (N : Nat) (t : task) (idx : Int) : Decidable (task_covers N t idx) :=
  inferInstanceAs (Decidable (_ ≤ _ ∧ _ ≤ _))

/-- Claim C8's reading of `get_num_tasks` (the spec sentence): total estimated
problem size divided by the memory ceiling with the QUOTIENT rounded up, then
snapped up to a multiple of the rank count.  Stated from the spec's words only,
for comparison with `get_num_tasks` (which rounds the SIZE up to a whole MB and
then truncates the quotient). -/
def get_num_tasks_spec (N : Nat) (space_per_elem : ℚ) (num_ranks rank_size_MB : Nat) : Nat :=
  let problem_size_MB : ℚ := space_per_elem * ((N * N : Nat) : ℚ)
  let problem_size_per_rank : Nat := (⌈problem_size_MB / (rank_size_MB : ℚ)⌉).toNat
  if problem_size_per_rank % num_ranks = 0 then
    problem_size_per_rank
  else
    ((problem_size_per_rank + num_ranks - 1) / num_ranks) * num_ranks

example : assign_elements_to_tasks 3 2 =
    [⟨0, 1, 0, 0⟩, ⟨1, 2, 1, 1⟩] := by decide

lemma int_tdiv_natCast (m n : Nat) : (m : Int).tdiv (n : Int) = ((m / n : Nat) : Int) := rfl

lemma int_tmod_natCast (m n : Nat) : (m : Int).tmod (n : Int) = ((m % n : Nat) : Int) := rfl

lemma assign_elements_to_tasks_length (N nt : Nat) :
    (assign_elements_to_tasks N nt).length = nt := by
  unfold assign_elements_to_tasks
  rw [List.length_map, List.length_range]

lemma assign_elements_to_tasks_getD (N nt i : Nat) (hi : i < nt) :
    (assign_elements_to_tasks N nt).getD i ⟨0, 0, 0, 0⟩ =
      ⟨((i * (N * N / nt) : Nat) : Int).tdiv (N : Int),
       ((((i + 1) * (N * N / nt) : Nat) : Int) - 1).tdiv (N : Int),
       ((i * (N * N / nt) : Nat) : Int).tmod (N : Int),
       ((((i + 1) * (N * N / nt) : Nat) : Int) - 1).tmod (N : Int)⟩ := by
  have hcast : ((N : Int) * (N : Int)).tdiv (nt : Int) = ((N * N / nt : Nat) : Int) := by
    rw [show ((N : Int) * (N : Int)) = ((N * N : Nat) : Int) by push_cast; ring]
    exact int_tdiv_natCast _ _
  have hlen2 : i < (assign_elements_to_tasks N nt).length := by
    rw [assign_elements_to_tasks_length]
    exact hi
  have hget : (assign_elements_to_tasks N nt).getD i ⟨0, 0, 0, 0⟩ =
      (assign_elements_to_tasks N nt)[i] := by
    rw [List.getD_eq_getElem?_getD, List.getElem?_eq_getElem, Option.getD_some]
  rw [hget]
  simp only [assign_elements_to_tasks, List.getElem_map, List.getElem_range, hcast]
  have h1 : (i : Int) * ((N * N / nt : Nat) : Int) = ((i * (N * N / nt) : Nat) : Int) := by
    push_cast; ring
  have h2 : ((i : Int) + 1) * ((N * N / nt : Nat) : Int)
      = (((i + 1) * (N * N / nt) : Nat) : Int) := by
    push_cast; ring
  rw [h1, h2]

/-- For a nonneg `Int` that is a cast Nat, `tdiv`/`tmod` recompose in the
row-major sense. -/
lemma tdiv_mul_add_tmod (m N : Nat) :
    ((m : Int).tdiv (N : Int)) * (N : Int) + (m : Int).tmod (N : Int) = (m : Int) := by
  rw [int_tdiv_natCast, int_tmod_natCast]
  rw [show ((m / N : Nat) : Int) * (N : Int) + ((m % N : Nat) : Int)
        = (((m / N) * N + m % N : Nat) : Int) by push_cast; ring]
  rw [Nat.div_add_mod']

lemma covers_getD_iff (N nt i : Nat) (hN : 0 < N) (ht : 0 < nt) (hdvd : nt ∣ N * N)
    (hi : i < nt) (idx : Int) :
    task_covers N ((assign_elements_to_tasks N nt).getD i ⟨0, 0, 0, 0⟩) idx ↔
      ((i * (N * N / nt) : Nat) : Int) ≤ idx ∧
        idx < (((i + 1) * (N * N / nt) : Nat) : Int) := by
  have hept : 0 < N * N / nt :=
    Nat.one_le_div_iff ht |>.mpr (Nat.le_of_dvd (Nat.mul_pos hN hN) hdvd)
  have hone : 1 ≤ (i + 1) * (N * N / nt) :=
    le_trans hept (Nat.le_mul_of_pos_left _ (Nat.succ_pos i))
  have hcast : (((i + 1) * (N * N / nt) : Nat) : Int) - 1
      = (((i + 1) * (N * N / nt) - 1 : Nat) : Int) := by
    rw [Nat.cast_sub hone]; norm_num
  rw [assign_elements_to_tasks_getD N nt i hi]
  unfold task_covers
  simp only [hcast]
  rw [tdiv_mul_add_tmod, tdiv_mul_add_tmod]
  have hb1 : (((i + 1) * (N * N / nt) - 1 : Nat) : Int)
      = (((i + 1) * (N * N / nt) : Nat) : Int) - 1 := by rw [← hcast]
  rw [hb1]
  generalize ((i * (N * N / nt) : Nat) : Int) = a
  generalize (((i + 1) * (N * N / nt) : Nat) : Int) = b
  omega

/- ----------------------------------------------------------------
   Claim C4: partition of the flattened element-pair range
   ---------------------------------------------------------------- -/

/-- Claim C4 fails as stated: for `N = 3`, `num_tasks = 2` the truncating
division `9 / 2 = 4` makes the two tasks cover linear indices `[0,3]` and
`[4,7]`, leaving pair `(2,2)` (linear index 8) owned by no task. -/
theorem assign_elements_to_tasks_gap :
    ¬ ∃ t ∈ assign_elements_to_tasks 3 2, task_covers 3 t 8 := by decide

/-- Claim C4 (amended): when `num_tasks` divides `N*N` (and the table is
non-empty), the tasks returned by `assign_elements_to_tasks` are contiguous
equal-sized runs of the row-major flattened pair range — task `i` owns exactly
linear indices `[i*(N*N/num_tasks), (i+1)*(N*N/num_tasks))` — and every linear
index in `[0, N*N)` is owned by exactly one task. -/
theorem assign_elements_to_tasks_partition (N num_tasks : Nat)
    (hN : 0 < N) (ht : 0 < num_tasks) (hdvd : num_tasks ∣ N * N) :
    (assign_elements_to_tasks N num_tasks).length = num_tasks ∧
    (∀ i : Nat, i < num_tasks → ∀ idx : Int,
      (task_covers N ((assign_elements_to_tasks N num_tasks).getD i ⟨0, 0, 0, 0⟩) idx ↔
        ((i * (N * N / num_tasks) : Nat) : Int) ≤ idx ∧
          idx < (((i + 1) * (N * N / num_tasks) : Nat) : Int))) ∧
    (∀ idx : Int, 0 ≤ idx → idx < ((N * N : Nat) : Int) →
      ∃! i : Nat, i < num_tasks ∧
        task_covers N ((assign_elements_to_tasks N num_tasks).getD i ⟨0, 0, 0, 0⟩) idx) := by
  have hept : 0 < N * N / num_tasks :=
    Nat.one_le_div_iff ht |>.mpr (Nat.le_of_dvd (Nat.mul_pos hN hN) hdvd)
  have htot : num_tasks * (N * N / num_tasks) = N * N := Nat.mul_div_cancel' hdvd
  refine ⟨assign_elements_to_tasks_length N num_tasks,
          fun i hi idx => covers_getD_iff N num_tasks i hN ht hdvd hi idx, ?_⟩
  intro idx h0 hlt
  obtain ⟨n, rfl⟩ : ∃ n : Nat, idx = (n : Int) := ⟨idx.toNat, (Int.toNat_of_nonneg h0).symm⟩
  have hn : n < N * N := by exact_mod_cast hlt
  set ept := N * N / num_tasks with hept_def
  refine ⟨n / ept, ⟨?_, ?_⟩, ?_⟩
  · exact (Nat.div_lt_iff_lt_mul hept).mpr (htot ▸ hn)
  · rw [covers_getD_iff N num_tasks _ hN ht hdvd ((Nat.div_lt_iff_lt_mul hept).mpr (htot ▸ hn))]
    constructor
    · exact_mod_cast Nat.div_mul_le_self n ept
    · have : n < (n / ept + 1) * ept := by
        calc n = ept * (n / ept) + n % ept := (Nat.div_add_mod n ept).symm
          _ < ept * (n / ept) + ept := by
              have := Nat.mod_lt n hept
              omega
          _ = (n / ept + 1) * ept := by ring
      exact_mod_cast this
  · rintro j ⟨hj, hcov⟩
    rw [covers_getD_iff N num_tasks _ hN ht hdvd hj] at hcov
    obtain ⟨hlo, hhi⟩ := hcov
    have hlo' : j * ept ≤ n := by exact_mod_cast hlo
    have hhi' : n < (j + 1) * ept := by exact_mod_cast hhi
    exact (Nat.div_eq_of_lt_le hlo' hhi').symm

/-- Witness for `assign_elements_to_tasks_partition` at `N = 3`,
`num_tasks = 3`. -/
theorem assign_elements_to_tasks_partition_witness :
    (0 : Nat) < 3 ∧ (0 : Nat) < 3 ∧ (3 : Nat) ∣ 3 * 3 ∧
    ((assign_elements_to_tasks 3 3).length = 3 ∧
    (∀ i : Nat, i < 3 → ∀ idx : Int,
      (task_covers 3 ((assign_elements_to_tasks 3 3).getD i ⟨0, 0, 0, 0⟩) idx ↔
        ((i * (3 * 3 / 3) : Nat) : Int) ≤ idx ∧
          idx < (((i + 1) * (3 * 3 / 3) : Nat) : Int))) ∧
    (∀ idx : Int, 0 ≤ idx → idx < ((3 * 3 : Nat) : Int) →
      ∃! i : Nat, i < 3 ∧
        task_covers 3 ((assign_elements_to_tasks 3 3).getD i ⟨0, 0, 0, 0⟩) idx)) :=
  ⟨by decide, by decide, by decide,
   assign_elements_to_tasks_partition 3 3 (by decide) (by decide) (by decide)⟩

/- ----------------------------------------------------------------
   Claims C8 and C10: get_num_tasks
   ---------------------------------------------------------------- -/

/-- The truncating division `x / b` is characterized by these two bounds. -/
lemma trunc_div_bounds (x b : Nat) (hb : 0 < b) :
    b * (x / b) ≤ x ∧ x < b * (x / b + 1) := by
  constructor
  · exact Nat.mul_div_le x b
  · have h1 := Nat.div_add_mod x b
    have h2 : x % b < b := Nat.mod_lt _ hb
    have h3 : b * (x / b + 1) = b * (x / b) + b := by ring
    omega

/-- The snap in `get_num_tasks` yields the least multiple of `nr` that is
at least `psr`. -/
lemma snap_up_bounds (psr nr : Nat) (hr : 0 < nr) :
    nr ∣ (if psr % nr = 0 then psr else ((psr + nr - 1) / nr) * nr) ∧
    psr ≤ (if psr % nr = 0 then psr else ((psr + nr - 1) / nr) * nr) ∧
    (if psr % nr = 0 then psr else ((psr + nr - 1) / nr) * nr) < psr + nr := by
  by_cases hmod : psr % nr = 0
  · rw [if_pos hmod]
    exact ⟨Nat.dvd_of_mod_eq_zero hmod, le_refl _, by omega⟩
  · rw [if_neg hmod]
    have h := Nat.div_add_mod (psr + nr - 1) nr
    have h2 : (psr + nr - 1) % nr < nr := Nat.mod_lt _ hr
    refine ⟨⟨(psr + nr - 1) / nr, mul_comm _ _⟩, ?_, ?_⟩
    · rw [mul_comm]
      generalize hm : (psr + nr - 1) % nr = r at h h2
      generalize hq : nr * ((psr + nr - 1) / nr) = m at h ⊢
      omega
    · rw [mul_comm]
      generalize hm : (psr + nr - 1) % nr = r at h h2
      generalize hq : nr * ((psr + nr - 1) / nr) = m at h ⊢
      omega

/-- Claim C8 fails as stated: for a 3 MB problem (`N = 1`,
`space_per_elem = 3`), one rank and a 2 MB ceiling, the code truncates
`⌈3⌉ / 2` to 1, while the claim's rounded-up quotient `⌈3/2⌉` would give 2. -/
theorem get_num_tasks_truncates :
    get_num_tasks 1 3 1 2 = 1 ∧ get_num_tasks_spec 1 3 1 2 = 2 := by
  have h3 : (⌈(3 : ℚ) * ((1 * 1 : Nat) : ℚ)⌉) = 3 := by
    rw [Int.ceil_eq_iff]; constructor <;> norm_num
  have hc : (⌈(3 : ℚ) * ((1 * 1 : Nat) : ℚ) / ((2 : Nat) : ℚ)⌉) = 2 := by
    rw [Int.ceil_eq_iff]; constructor <;> norm_num
  constructor
  · simp only [get_num_tasks, h3]
    decide
  · simp only [get_num_tasks_spec, hc]
    decide

/-- Claim C8 (amended): `get_num_tasks` returns the total estimated problem
size rounded up to a whole megabyte, divided by the memory ceiling with the
quotient TRUNCATED (characterized by the last two conjuncts), then snapped up
to the least multiple of the rank count that is at least that quotient
(first three conjuncts; in particular it equals the quotient when the quotient
is already a multiple). -/
theorem get_num_tasks_characterization (N num_ranks rank_size_MB : Nat)
    (space_per_elem : ℚ) (hr : 0 < num_ranks) (hs : 0 < rank_size_MB) :
    num_ranks ∣ get_num_tasks N space_per_elem num_ranks rank_size_MB ∧
    (⌈space_per_elem * ((N * N : Nat) : ℚ)⌉).toNat / rank_size_MB ≤
      get_num_tasks N space_per_elem num_ranks rank_size_MB ∧
    get_num_tasks N space_per_elem num_ranks rank_size_MB <
      (⌈space_per_elem * ((N * N : Nat) : ℚ)⌉).toNat / rank_size_MB + num_ranks ∧
    rank_size_MB * ((⌈space_per_elem * ((N * N : Nat) : ℚ)⌉).toNat / rank_size_MB) ≤
      (⌈space_per_elem * ((N * N : Nat) : ℚ)⌉).toNat ∧
    (⌈space_per_elem * ((N * N : Nat) : ℚ)⌉).toNat <
      rank_size_MB * ((⌈space_per_elem * ((N * N : Nat) : ℚ)⌉).toNat / rank_size_MB + 1) := by
  have hkey := snap_up_bounds
    ((⌈space_per_elem * ((N * N : Nat) : ℚ)⌉).toNat / rank_size_MB) num_ranks hr
  have hdiv := trunc_div_bounds
    (⌈space_per_elem * ((N * N : Nat) : ℚ)⌉).toNat rank_size_MB hs
  have hres : get_num_tasks N space_per_elem num_ranks rank_size_MB
      = if (⌈space_per_elem * ((N * N : Nat) : ℚ)⌉).toNat / rank_size_MB % num_ranks = 0
        then (⌈space_per_elem * ((N * N : Nat) : ℚ)⌉).toNat / rank_size_MB
        else (((⌈space_per_elem * ((N * N : Nat) : ℚ)⌉).toNat / rank_size_MB
                + num_ranks - 1) / num_ranks) * num_ranks := rfl
  rw [hres]
  exact ⟨hkey.1, hkey.2.1, hkey.2.2, hdiv.1, hdiv.2⟩

/-- Witness for `get_num_tasks_characterization` at `N = 1`,
`space_per_elem = 3`, two ranks, 2 MB ceiling. -/
theorem get_num_tasks_characterization_witness :
    (0 : Nat) < 2 ∧ (0 : Nat) < 2 ∧
    ((2 : Nat) ∣ get_num_tasks 1 3 2 2 ∧
     (⌈(3 : ℚ) * ((1 * 1 : Nat) : ℚ)⌉).toNat / 2 ≤ get_num_tasks 1 3 2 2 ∧
     get_num_tasks 1 3 2 2 < (⌈(3 : ℚ) * ((1 * 1 : Nat) : ℚ)⌉).toNat / 2 + 2 ∧
     2 * ((⌈(3 : ℚ) * ((1 * 1 : Nat) : ℚ)⌉).toNat / 2) ≤
       (⌈(3 : ℚ) * ((1 * 1 : Nat) : ℚ)⌉).toNat ∧
     (⌈(3 : ℚ) * ((1 * 1 : Nat) : ℚ)⌉).toNat <
       2 * ((⌈(3 : ℚ) * ((1 * 1 : Nat) : ℚ)⌉).toNat / 2 + 1)) :=
  ⟨by decide, by decide, get_num_tasks_characterization 1 2 2 3 (by decide) (by decide)⟩

/-- Claim C10: when the problem size rounded up to a whole megabyte is below
the per-rank ceiling, the truncating division yields 0, which is a multiple of
`num_ranks` and is therefore returned unchanged; that 0 then violates the
`assert(num_tasks > 0)` guarding `assign_elements_to_tasks`. -/
theorem get_num_tasks_zero_of_small_problem (N num_ranks rank_size_MB : Nat)
    (space_per_elem : ℚ) (hr : 0 < num_ranks) (hs : 0 < rank_size_MB)
    (hsmall : (⌈space_per_elem * ((N * N : Nat) : ℚ)⌉).toNat < rank_size_MB) :
    get_num_tasks N space_per_elem num_ranks rank_size_MB = 0 ∧
    ¬ assign_elements_to_tasks_assert
        (get_num_tasks N space_per_elem num_ranks rank_size_MB) := by
  have hpsr : (⌈space_per_elem * ((N * N : Nat) : ℚ)⌉).toNat / rank_size_MB = 0 :=
    Nat.div_eq_of_lt hsmall
  have hres : get_num_tasks N space_per_elem num_ranks rank_size_MB = 0 := by
    simp only [get_num_tasks]
    rw [hpsr]
    simp
  refine ⟨hres, ?_⟩
  rw [hres]
  exact fun h => absurd h (lt_irrefl 0)

/-- Witness for `get_num_tasks_zero_of_small_problem`: a half-megabyte problem
with a 3 MB ceiling. -/
theorem get_num_tasks_zero_of_small_problem_witness :
    (0 : Nat) < 2 ∧ (0 : Nat) < 3 ∧
    (⌈(1 / 2 : ℚ) * ((1 * 1 : Nat) : ℚ)⌉).toNat < 3 ∧
    (get_num_tasks 1 (1 / 2) 2 3 = 0 ∧
     ¬ assign_elements_to_tasks_assert (get_num_tasks 1 (1 / 2) 2 3)) := by
  have hc : (⌈(1 / 2 : ℚ) * ((1 * 1 : Nat) : ℚ)⌉) = 1 := by
    rw [Int.ceil_eq_iff]; constructor <;> norm_num
  have hsmall : (⌈(1 / 2 : ℚ) * ((1 * 1 : Nat) : ℚ)⌉).toNat < 3 := by
    rw [hc]; decide
  exact ⟨by decide, by decide, hsmall,
    get_num_tasks_zero_of_small_problem 1 2 3 (1 / 2) (by decide) (by decide) hsmall⟩

/- ----------------------------------------------------------------
   Distribution layer (src/distribution.cpp)
   ---------------------------------------------------------------- -/

/-- The integer part of `sqrt n` (the `std::floor(std::sqrt(n))` of the
source, which is exact for the machine-int ranges involved), defined as the
greatest `k ≤ n` with `k*k ≤ n` so that it evaluates by structural recursion. -/
def floor_sqrt (n : Nat) : Nat := Nat.findGreatest (fun k => k * k ≤ n) n

lemma floor_sqrt_sq_le (n : Nat) : floor_sqrt n * floor_sqrt n ≤ n :=
  Nat.findGreatest_spec (P := fun k => k * k ≤ n) (Nat.zero_le n) (by simp)

lemma floor_sqrt_lt_succ_sq (n : Nat) : n < (floor_sqrt n + 1) * (floor_sqrt n + 1) := by
  by_cases h : floor_sqrt n + 1 ≤ n
  · have hng := Nat.findGreatest_is_greatest (Nat.lt_succ_self (floor_sqrt n)) h
    exact not_le.mp hng
  · have hle : floor_sqrt n ≤ n := Nat.findGreatest_le n
    have h1 : n + 1 ≤ (floor_sqrt n + 1) * (floor_sqrt n + 1) :=
      le_trans (by omega) (Nat.le_mul_of_pos_left _ (Nat.succ_pos _))
    omega

lemma floor_sqrt_mul_self (k : Nat) : floor_sqrt (k * k) = k := by
  have h1 := floor_sqrt_sq_le (k * k)
  have h2 := floor_sqrt_lt_succ_sq (k * k)
  set s := floor_sqrt (k * k) with hs
  rcases Nat.lt_trichotomy s k with h | h | h
  · have h3 : (s + 1) * (s + 1) ≤ k * k :=
      Nat.mul_le_mul (Nat.succ_le_of_lt h) (Nat.succ_le_of_lt h)
    omega
  · exact h
  · have h3 : (k + 1) * (k + 1) ≤ s * s :=
      Nat.mul_le_mul (Nat.succ_le_of_lt h) (Nat.succ_le_of_lt h)
    have h4 : k * k < (k + 1) * (k + 1) := Nat.mul_self_lt_mul_self (Nat.lt_succ_self k)
    omega

/-- The perfect-square test of `num_effective_ranks`
(`std::sqrt(n) == std::floor(std::sqrt(n))`), exact over `Nat`. -/
def is_perfect_square (n : Nat) : Prop := floor_sqrt n * floor_sqrt n = n

instance (n : Nat) : Decidable (is_perfect_square n) :=
  inferInstanceAs (Decidable (_ = _))

/-- The `num_effective_ranks` lambda from src/distribution.cpp: keep `n` when
it is a perfect square or even, else drop one rank. -/
def num_effective_ranks (num_ranks : Nat) : Nat :=
  if is_perfect_square num_ranks ∨ num_ranks % 2 = 0 then num_ranks
  else num_ranks - 1

/-- Modelled from the spec: rounding `sqrt n` to the nearest integer
(`round(sqrt(effective_ranks))`, spec 4.2).  `round_sqrt n = floor_sqrt n + 1`
exactly when the fractional part of `sqrt n` is at least one half,
i.e. when `n > s*s + s` for `s = floor_sqrt n` (a tie is impossible since
`s*s + s + 1/4` is never an integer). -/
def round_sqrt (n : Nat) : Nat :=
  if floor_sqrt n * floor_sqrt n + floor_sqrt n < n then floor_sqrt n + 1 else floor_sqrt n

/-- Modelled from the spec: decrement a trial column count until it divides
the rank count, stopping at 1 ("adjusted until it evenly divides, falls back
toward 1 column", spec 4.2). -/
def adjust_cols (num_ranks : Nat) : Nat → Nat
  | 0 => 1
  | k + 1 => if num_ranks % (k + 1) = 0 then k + 1 else adjust_cols num_ranks k

/-- Modelled from the spec: `get_num_subgrid_cols` is declared in
distribution.hpp, which is not among the provided sources; spec 4.2 says
"Factor `effective_ranks` into `rows x cols` with
`cols = round(sqrt(effective_ranks))` adjusted until it evenly divides
(falls back toward 1 column for non-square counts)." -/
def get_num_subgrid_cols (num_ranks : Nat) : Nat :=
  adjust_cols num_ranks (round_sqrt num_ranks)

lemma adjust_cols_pos (n k : Nat) : 0 < adjust_cols n k := by
  induction k with
  | zero => exact Nat.one_pos
  | succ k ih =>
      unfold adjust_cols
      split
      · exact Nat.succ_pos k
      · exact ih

lemma adjust_cols_dvd (n k : Nat) : adjust_cols n k ∣ n := by
  induction k with
  | zero => exact one_dvd n
  | succ k ih =>
      unfold adjust_cols
      split
      · exact Nat.dvd_of_mod_eq_zero (by assumption)
      · exact ih

lemma get_num_subgrid_cols_pos (n : Nat) : 0 < get_num_subgrid_cols n :=
  adjust_cols_pos n (round_sqrt n)

lemma get_num_subgrid_cols_dvd (n : Nat) : get_num_subgrid_cols n ∣ n :=
  adjust_cols_dvd n (round_sqrt n)

/-- `element_subgrid(row_start, row_stop, col_start, col_stop)` from
distribution.hpp, with the field layout used throughout src/distribution.cpp. -/
structure element_subgrid where
  row_start : Nat
  row_stop  : Nat
  col_start : Nat
  col_stop  : Nat
deriving DecidableEq, Repr

/-- Start index of band `i` when `N` indices are split over `B` bands:
the `index * width + std::min(index, left_over)` arithmetic of `get_subgrid`. -/
def band_start (N B i : Nat) : Nat := i * (N / B) + min i (N % B)

/-- `get_subgrid` from src/distribution.cpp.  `N` is `table.size()`. -/
def get_subgrid (num_ranks my_rank N : Nat) : element_subgrid :=
  if num_ranks = 1 then ⟨0, N - 1, 0, N - 1⟩
  else
    let num_subgrid_cols := get_num_subgrid_cols num_ranks
    let num_subgrid_rows := num_ranks / num_subgrid_cols
    let grid_row_index := my_rank / num_subgrid_cols
    let grid_col_index := my_rank % num_subgrid_cols
    let left_over_cols := N % num_subgrid_cols
    let subgrid_width := N / num_subgrid_cols
    let left_over_rows := N % num_subgrid_rows
    let subgrid_height := N / num_subgrid_rows
    let start_col := grid_col_index * subgrid_width + min grid_col_index left_over_cols
    let start_row := grid_row_index * subgrid_height + min grid_row_index left_over_rows
    let stop_col :=
      start_col + subgrid_width + (if left_over_cols > grid_col_index then 1 else 0) - 1
    let stop_row :=
      start_row + subgrid_height + (if left_over_rows > grid_row_index then 1 else 0) - 1
    ⟨start_row, stop_row, start_col, stop_col⟩

/-- `get_plan` from src/distribution.cpp.  The `std::map<int, element_subgrid>`
(iterated in increasing key order) is embedded as the association list with
keys `0, 1, ...` in order. -/
def get_plan (num_ranks N : Nat) : List (Nat × element_subgrid) :=
  (List.range (num_effective_ranks num_ranks)).map
    (fun i => (i, get_subgrid (num_effective_ranks num_ranks) i N))

/-- Membership of global pair `(r, c)` in a subgrid's inclusive tile. -/
def in_subgrid (g : element_subgrid) (r c : Nat) : Prop :=
  g.row_start ≤ r ∧ r ≤ g.row_stop ∧ g.col_start ≤ c ∧ c ≤ g.col_stop

instance (g : element_subgrid) (r c : Nat) : Decidable (in_subgrid g r c) :=
  inferInstanceAs (Decidable (_ ≤ _ ∧ _ ≤ _ ∧ _ ≤ _ ∧ _ ≤ _))

lemma band_start_zero (N B : Nat) : band_start N B 0 = 0 := by
  simp [band_start]

lemma band_start_succ (N B i : Nat) :
    band_start N B (i + 1) =
      band_start N B i + N / B + (if N % B > i then 1 else 0) := by
  unfold band_start
  rcases lt_or_ge i (N % B) with h | h
  · rw [if_pos h, min_eq_left (Nat.succ_le_of_lt h), min_eq_left (Nat.le_of_lt h),
        Nat.succ_mul]
    omega
  · rw [if_neg (not_lt.mpr h), min_eq_right h,
        min_eq_right (le_trans h (Nat.le_succ i)), Nat.succ_mul]
    omega

lemma band_start_last (N B : Nat) (hB : 0 < B) : band_start N B B = N := by
  unfold band_start
  rw [min_eq_right (Nat.le_of_lt (Nat.mod_lt N hB))]
  exact Nat.div_add_mod N B

lemma band_start_mono (N B : Nat) : Monotone (band_start N B) := by
  apply monotone_nat_of_le_succ
  intro i
  rw [band_start_succ]
  split <;> exact le_trans (Nat.le_add_right _ _) (Nat.le_add_right _ _)

lemma band_start_lt_succ (N B i : Nat) (hw : 0 < N / B) :
    band_start N B i < band_start N B (i + 1) := by
  rw [band_start_succ]
  split <;> omega

/-- Every `x < N` lies in exactly one of the `B` bands. -/
lemma exists_unique_band (N B x : Nat) (hB : 0 < B) (hw : 0 < N / B) (hx : x < N) :
    ∃! i : Nat, i < B ∧ band_start N B i ≤ x ∧ x < band_start N B (i + 1) := by
  classical
  set P : Nat → Prop := fun i => band_start N B i ≤ x with hP
  have hP0 : P 0 := by simp [hP, band_start_zero]
  set i0 : Nat := Nat.findGreatest P B with hi0
  have hPi0 : P i0 := Nat.findGreatest_spec (Nat.zero_le B) hP0
  have hle : i0 ≤ B := Nat.findGreatest_le B
  have hne : i0 ≠ B := by
    intro h
    rw [h] at hPi0
    simp only [hP, band_start_last N B hB] at hPi0
    omega
  have hi0B : i0 < B := lt_of_le_of_ne hle hne
  have hnot : ¬ P (i0 + 1) :=
    Nat.findGreatest_is_greatest (Nat.lt_succ_self i0) (Nat.succ_le_of_lt hi0B)
  refine ⟨i0, ⟨hi0B, hPi0, not_le.mp hnot⟩, ?_⟩
  rintro j ⟨hjB, hj1, hj2⟩
  by_contra hne2
  rcases lt_or_gt_of_ne hne2 with hlt | hgt
  · have : band_start N B (j + 1) ≤ band_start N B i0 :=
      band_start_mono N B (Nat.succ_le_of_lt hlt)
    omega
  · have : band_start N B (i0 + 1) ≤ band_start N B j :=
      band_start_mono N B (Nat.succ_le_of_lt hgt)
    omega

/-- The `floor_sqrt`-based perfect-square test agrees with the usual
definition. -/
lemma is_perfect_square_iff (n : Nat) : is_perfect_square n ↔ ∃ k, k * k = n := by
  constructor
  · intro h
    exact ⟨floor_sqrt n, h⟩
  · rintro ⟨k, rfl⟩
    unfold is_perfect_square
    rw [floor_sqrt_mul_self k]

/-- Claim C5: `get_plan` uses `effective_ranks = num_ranks` when `num_ranks`
is even or a perfect square and `num_ranks - 1` otherwise, and the plan's keys
are exactly the contiguous rank ids `0 .. effective_ranks - 1`; in particular
`num_ranks = 3` yields a two-entry plan. -/
theorem get_plan_effective_ranks (num_ranks N : Nat) (h0 : 0 < num_ranks) :
    (((∃ k, k * k = num_ranks) ∨ num_ranks % 2 = 0) →
        num_effective_ranks num_ranks = num_ranks) ∧
    ((¬ ∃ k, k * k = num_ranks) → num_ranks % 2 ≠ 0 →
        num_effective_ranks num_ranks = num_ranks - 1) ∧
    (get_plan num_ranks N).map Prod.fst = List.range (num_effective_ranks num_ranks) ∧
    (get_plan 3 N).length = 2 := by
  have heff3 : num_effective_ranks 3 = 2 := by decide
  refine ⟨?_, ?_, ?_, ?_⟩
  · intro h
    unfold num_effective_ranks
    rw [if_pos]
    rcases h with h | h
    · exact Or.inl ((is_perfect_square_iff num_ranks).mpr h)
    · exact Or.inr h
  · intro h1 h2
    unfold num_effective_ranks
    rw [if_neg]
    rintro (h | h)
    · exact h1 ((is_perfect_square_iff num_ranks).mp h)
    · exact h2 h
  · unfold get_plan
    rw [List.map_map]
    show List.map id (List.range (num_effective_ranks num_ranks)) = _
    exact List.map_id _
  · simp [get_plan, heff3]

/-- Witness for `get_plan_effective_ranks` at `num_ranks = 3`, `N = 5`. -/
theorem get_plan_effective_ranks_witness :
    (0 : Nat) < 3 ∧
    ((((∃ k, k * k = 3) ∨ (3 : Nat) % 2 = 0) → num_effective_ranks 3 = 3) ∧
     ((¬ ∃ k, k * k = 3) → (3 : Nat) % 2 ≠ 0 → num_effective_ranks 3 = 3 - 1) ∧
     (get_plan 3 5).map Prod.fst = List.range (num_effective_ranks 3) ∧
     (get_plan 3 5).length = 2) :=
  ⟨by decide, get_plan_effective_ranks 3 5 (by decide)⟩

lemma num_effective_ranks_pos (n : Nat) (h0 : 0 < n) : 0 < num_effective_ranks n := by
  unfold num_effective_ranks
  split
  · exact h0
  · rename_i h
    have h1 : n ≠ 1 := by
      rintro rfl
      exact h (Or.inl (by decide))
    omega

lemma num_effective_ranks_le (n : Nat) : num_effective_ranks n ≤ n := by
  unfold num_effective_ranks
  split <;> omega

lemma mem_get_plan (num_ranks N k : Nat) (g : element_subgrid) :
    (k, g) ∈ get_plan num_ranks N ↔
      k < num_effective_ranks num_ranks ∧
        g = get_subgrid (num_effective_ranks num_ranks) k N := by
  unfold get_plan
  constructor
  · intro h
    obtain ⟨i, hi, heq⟩ := List.mem_map.mp h
    cases heq
    exact ⟨List.mem_range.mp hi, rfl⟩
  · rintro ⟨hk, rfl⟩
    exact List.mem_map.mpr ⟨k, List.mem_range.mpr hk, rfl⟩

lemma get_subgrid_eq (nr k N : Nat) (h1 : nr ≠ 1) :
    get_subgrid nr k N =
      ⟨band_start N (nr / get_num_subgrid_cols nr) (k / get_num_subgrid_cols nr),
       band_start N (nr / get_num_subgrid_cols nr) (k / get_num_subgrid_cols nr + 1) - 1,
       band_start N (get_num_subgrid_cols nr) (k % get_num_subgrid_cols nr),
       band_start N (get_num_subgrid_cols nr) (k % get_num_subgrid_cols nr + 1) - 1⟩ := by
  simp only [get_subgrid]
  rw [if_neg h1]
  congr 1
  · rw [band_start_succ]
    rfl
  · rw [band_start_succ]
    rfl

lemma in_subgrid_iff (nr k N : Nat) (h1 : nr ≠ 1)
    (hwr : 0 < N / (nr / get_num_subgrid_cols nr))
    (hwc : 0 < N / get_num_subgrid_cols nr) (r c : Nat) :
    in_subgrid (get_subgrid nr k N) r c ↔
      (band_start N (nr / get_num_subgrid_cols nr) (k / get_num_subgrid_cols nr) ≤ r ∧
       r < band_start N (nr / get_num_subgrid_cols nr) (k / get_num_subgrid_cols nr + 1)) ∧
      (band_start N (get_num_subgrid_cols nr) (k % get_num_subgrid_cols nr) ≤ c ∧
       c < band_start N (get_num_subgrid_cols nr) (k % get_num_subgrid_cols nr + 1)) := by
  rw [get_subgrid_eq nr k N h1]
  unfold in_subgrid
  have hr := band_start_lt_succ N (nr / get_num_subgrid_cols nr)
    (k / get_num_subgrid_cols nr) hwr
  have hc := band_start_lt_succ N (get_num_subgrid_cols nr)
    (k % get_num_subgrid_cols nr) hwc
  simp only []
  omega

lemma get_subgrid_eq_all (nr k N : Nat) (hk : k < nr) :
    get_subgrid nr k N =
      ⟨band_start N (nr / get_num_subgrid_cols nr) (k / get_num_subgrid_cols nr),
       band_start N (nr / get_num_subgrid_cols nr) (k / get_num_subgrid_cols nr + 1) - 1,
       band_start N (get_num_subgrid_cols nr) (k % get_num_subgrid_cols nr),
       band_start N (get_num_subgrid_cols nr) (k % get_num_subgrid_cols nr + 1) - 1⟩ := by
  by_cases h1 : nr = 1
  · subst h1
    have hk0 : k = 0 := by omega
    subst hk0
    have hcols1 : get_num_subgrid_cols 1 = 1 := by decide
    have hb0 : band_start N 1 0 = 0 := band_start_zero N 1
    have hb1 : band_start N 1 1 = N := band_start_last N 1 (by norm_num)
    simp only [get_subgrid, if_pos rfl]
    congr 1 <;> simp [hcols1, hb0, hb1]
  · exact get_subgrid_eq nr k N h1

lemma in_subgrid_iff_all (nr k N : Nat) (hk : k < nr)
    (hwr : 0 < N / (nr / get_num_subgrid_cols nr))
    (hwc : 0 < N / get_num_subgrid_cols nr) (r c : Nat) :
    in_subgrid (get_subgrid nr k N) r c ↔
      (band_start N (nr / get_num_subgrid_cols nr) (k / get_num_subgrid_cols nr) ≤ r ∧
       r < band_start N (nr / get_num_subgrid_cols nr) (k / get_num_subgrid_cols nr + 1)) ∧
      (band_start N (get_num_subgrid_cols nr) (k % get_num_subgrid_cols nr) ≤ c ∧
       c < band_start N (get_num_subgrid_cols nr) (k % get_num_subgrid_cols nr + 1)) := by
  rw [get_subgrid_eq_all nr k N hk]
  unfold in_subgrid
  have hr := band_start_lt_succ N (nr / get_num_subgrid_cols nr)
    (k / get_num_subgrid_cols nr) hwr
  have hc := band_start_lt_succ N (get_num_subgrid_cols nr)
    (k % get_num_subgrid_cols nr) hwc
  dsimp only
  omega

/-- Claim C1: for every `0 < num_ranks < N`, the subgrids produced by
`get_plan` (one per effective rank, each built by `get_subgrid`) tile the
inclusive index square `[0,N-1] x [0,N-1]` exactly — every `(row, col)` pair
lies in exactly one rank's subgrid — and in each of the row and column
directions the `N` indices are split as evenly as possible, the first
`N mod num_bands` bands receiving exactly one extra index
(stated per rank: rank `k` sits in row band `k / cols` and column band
`k % cols`, and gets the band width `N / num_bands` plus one exactly when
its band index is below `N mod num_bands`). -/
theorem get_plan_tiling (N num_ranks ns cols rows : Nat) (h0 : 0 < num_ranks)
    (hN : num_ranks < N)
    (hns : ns = num_effective_ranks num_ranks)
    (hcols : cols = get_num_subgrid_cols ns)
    (hrows : rows = ns / cols) :
    (∀ r c : Nat, r < N → c < N →
      ∃! k : Nat, ∃ g : element_subgrid,
        (k, g) ∈ get_plan num_ranks N ∧ in_subgrid g r c) ∧
    (∀ k g, (k, g) ∈ get_plan num_ranks N →
      g.row_stop + 1 - g.row_start
          = N / rows + (if k / cols < N % rows then 1 else 0) ∧
      g.col_stop + 1 - g.col_start
          = N / cols + (if k % cols < N % cols then 1 else 0)) := by
  have hnspos : 0 < ns := hns ▸ num_effective_ranks_pos num_ranks h0
  have hcolspos : 0 < cols := hcols ▸ get_num_subgrid_cols_pos ns
  have hdvd : cols ∣ ns := hcols ▸ get_num_subgrid_cols_dvd ns
  have hrowspos : 0 < rows :=
    hrows ▸ (Nat.one_le_div_iff hcolspos |>.mpr (Nat.le_of_dvd hnspos hdvd))
  have hrc : rows * cols = ns := by rw [hrows]; exact Nat.div_mul_cancel hdvd
  have hnsN : ns < N := lt_of_le_of_lt (hns ▸ num_effective_ranks_le num_ranks) hN
  have hcolsN : cols ≤ N := le_trans (Nat.le_of_dvd hnspos hdvd) (le_of_lt hnsN)
  have hrowsdvd : rows ∣ ns := ⟨cols, hrc.symm⟩
  have hrowsN : rows ≤ N := le_trans (Nat.le_of_dvd hnspos hrowsdvd) (le_of_lt hnsN)
  have hwc : 0 < N / cols := Nat.one_le_div_iff hcolspos |>.mpr hcolsN
  have hwr : 0 < N / rows := Nat.one_le_div_iff hrowspos |>.mpr hrowsN
  have hwc0 : 0 < N / get_num_subgrid_cols ns := by rw [← hcols]; exact hwc
  have hwr0 : 0 < N / (ns / get_num_subgrid_cols ns) := by rw [← hcols, ← hrows]; exact hwr
  have hmem : ∀ k g, (k, g) ∈ get_plan num_ranks N ↔ k < ns ∧ g = get_subgrid ns k N := by
    intro k g
    rw [mem_get_plan, ← hns]
  have hsub : ∀ k, k < ns → get_subgrid ns k N =
      ⟨band_start N rows (k / cols), band_start N rows (k / cols + 1) - 1,
       band_start N cols (k % cols), band_start N cols (k % cols + 1) - 1⟩ := by
    intro k hk
    rw [get_subgrid_eq_all ns k N hk, ← hcols, ← hrows]
  have hin : ∀ k r c, k < ns → (in_subgrid (get_subgrid ns k N) r c ↔
      (band_start N rows (k / cols) ≤ r ∧ r < band_start N rows (k / cols + 1)) ∧
      (band_start N cols (k % cols) ≤ c ∧ c < band_start N cols (k % cols + 1))) := by
    intro k r c hk
    rw [in_subgrid_iff_all ns k N hk hwr0 hwc0, ← hcols, ← hrows]
  constructor
  · intro r c hr hc
    obtain ⟨i, ⟨hiB, hi1, hi2⟩, hiu⟩ := exists_unique_band N rows r hrowspos hwr hr
    obtain ⟨j, ⟨hjB, hj1, hj2⟩, hju⟩ := exists_unique_band N cols c hcolspos hwc hc
    have hkmem : i * cols + j < ns := by
      calc i * cols + j < i * cols + cols := by omega
        _ = (i + 1) * cols := by ring
        _ ≤ rows * cols := Nat.mul_le_mul_right cols (Nat.succ_le_of_lt hiB)
        _ = ns := hrc
    have hdiv : (i * cols + j) / cols = i := by
      rw [mul_comm, Nat.mul_add_div hcolspos, Nat.div_eq_of_lt hjB, Nat.add_zero]
    have hmod : (i * cols + j) % cols = j := by
      rw [mul_comm, Nat.mul_add_mod, Nat.mod_eq_of_lt hjB]
    refine ⟨i * cols + j, ⟨get_subgrid ns (i * cols + j) N, ?_, ?_⟩, ?_⟩
    · rw [hmem]
      exact ⟨hkmem, rfl⟩
    · rw [hin _ r c hkmem, hdiv, hmod]
      exact ⟨⟨hi1, hi2⟩, hj1, hj2⟩
    · rintro k' ⟨g', hg'mem, hg'in⟩
      rw [hmem] at hg'mem
      obtain ⟨hk', rfl⟩ := hg'mem
      rw [hin k' r c hk'] at hg'in
      obtain ⟨⟨ha1, ha2⟩, hb1, hb2⟩ := hg'in
      have hkr : k' / cols < rows := by
        rw [Nat.div_lt_iff_lt_mul hcolspos, hrc]
        exact hk'
      have hi' : k' / cols = i := hiu (k' / cols) ⟨hkr, ha1, ha2⟩
      have hj' : k' % cols = j := hju (k' % cols) ⟨Nat.mod_lt _ hcolspos, hb1, hb2⟩
      calc k' = k' / cols * cols + k' % cols := (Nat.div_add_mod' k' cols).symm
        _ = i * cols + j := by rw [hi', hj']
  · intro k g hgmem
    rw [hmem] at hgmem
    obtain ⟨hk, rfl⟩ := hgmem
    rw [hsub k hk]
    have hsr := band_start_succ N rows (k / cols)
    have hsc := band_start_succ N cols (k % cols)
    have hlr := band_start_lt_succ N rows (k / cols) hwr
    have hlc := band_start_lt_succ N cols (k % cols) hwc
    dsimp only
    constructor
    · rw [hsr] at hlr ⊢
      by_cases hcond : N % rows > k / cols
      · rw [if_pos hcond] at hlr ⊢
        omega
      · rw [if_neg hcond] at hlr ⊢
        omega
    · rw [hsc] at hlc ⊢
      by_cases hcond : N % cols > k % cols
      · rw [if_pos hcond] at hlc ⊢
        omega
      · rw [if_neg hcond] at hlc ⊢
        omega

/-- Witness for `get_plan_tiling` at `N = 5`, `num_ranks = 4`
(a 2 x 2 process grid). -/
theorem get_plan_tiling_witness :
    (0 : Nat) < 4 ∧ (4 : Nat) < 5 ∧ 4 = num_effective_ranks 4 ∧
    2 = get_num_subgrid_cols 4 ∧ 2 = 4 / 2 ∧
    ((∀ r c : Nat, r < 5 → c < 5 →
      ∃! k : Nat, ∃ g : element_subgrid,
        (k, g) ∈ get_plan 4 5 ∧ in_subgrid g r c) ∧
    (∀ k g, (k, g) ∈ get_plan 4 5 →
      g.row_stop + 1 - g.row_start
          = 5 / 2 + (if k / 2 < 5 % 2 then 1 else 0) ∧
      g.col_stop + 1 - g.col_start
          = 5 / 2 + (if k % 2 < 5 % 2 then 1 else 0))) :=
  ⟨by decide, by decide, by decide, by decide, by decide,
   get_plan_tiling 5 4 4 2 2 (by decide) (by decide) (by decide) (by decide) (by decide)⟩

/- ----------------------------------------------------------------
   Claim C6: find_column_dependencies
   ---------------------------------------------------------------- -/

/-- `grid_limits(start, stop)`: an inclusive global element-index range. -/
structure grid_limits where
  start : Nat
  stop  : Nat
deriving DecidableEq, Repr

/-- Inner loop of `find_column_dependencies`: sweep the row stop-boundaries
(`row_start` running start, `r` running index) against one column interval
`[col_start, column_end]`, emplacing the overlap whenever the source's
interval test fires. -/
def row_deps_from (col_start column_end : Nat) :
    Nat → Nat → List Nat → List (Nat × grid_limits)
  | _, _, [] => []
  | row_start, r, row_end :: rest =>
      (if (col_start ≥ row_start ∧ col_start ≤ row_end) ∨
          (row_start ≥ col_start ∧ row_start ≤ column_end)
       then [(r, grid_limits.mk (max row_start col_start) (min row_end column_end))]
       else [])
      ++ row_deps_from col_start column_end (row_end + 1) (r + 1) rest

/-- Outer loop of `find_column_dependencies` over the column stop-boundaries,
threading the running `col_start`. -/
def column_deps_from (row_boundaries : List Nat) :
    Nat → List Nat → List (List (Nat × grid_limits))
  | _, [] => []
  | col_start, column_end :: rest =>
      row_deps_from col_start column_end 0 0 row_boundaries ::
        column_deps_from row_boundaries (column_end + 1) rest

/-- `find_column_dependencies` from src/distribution.cpp.  Each entry of the
result is the `rows_to_range` map of one subgrid column, embedded as the
association list in increasing row order (the `std::map` iteration order). -/
def find_column_dependencies (row_boundaries column_boundaries : List Nat) :
    List (List (Nat × grid_limits)) :=
  column_deps_from row_boundaries 0 column_boundaries

/-- The lower edge of band `t` when the running start for band 0 is `rs` and
the inclusive stop indices are `bounds`. -/
def band_lo_from (rs : Nat) (bounds : List Nat) (t : Nat) : Nat :=
  if t = 0 then rs else bounds.getD (t - 1) 0 + 1

lemma band_lo_from_cons (rs re : Nat) (rest : List Nat) (t : Nat) :
    band_lo_from rs (re :: rest) (t + 1) = band_lo_from (re + 1) rest t := by
  cases t with
  | zero => rfl
  | succ t' =>
      show (re :: rest).getD (t' + 1) 0 + 1 = rest.getD t' 0 + 1
      rw [List.getD_cons_succ]

lemma row_deps_from_mem (rbs : List Nat) : ∀ (cs ce rs r0 rr : Nat) (g : grid_limits),
    (rr, g) ∈ row_deps_from cs ce rs r0 rbs ↔
      ∃ t, t < rbs.length ∧ rr = r0 + t ∧
        ((band_lo_from rs rbs t ≤ cs ∧ cs ≤ rbs.getD t 0) ∨
         (cs ≤ band_lo_from rs rbs t ∧ band_lo_from rs rbs t ≤ ce)) ∧
        g = ⟨max (band_lo_from rs rbs t) cs, min (rbs.getD t 0) ce⟩ := by
  induction rbs with
  | nil =>
      intro cs ce rs r0 rr g
      simp [row_deps_from]
  | cons re rest ih =>
      intro cs ce rs r0 rr g
      constructor
      · intro h
        simp only [row_deps_from] at h
        rcases List.mem_append.mp h with h1 | h2
        · by_cases hcnd : (rs ≤ cs ∧ cs ≤ re) ∨ (cs ≤ rs ∧ rs ≤ ce)
          · rw [if_pos hcnd] at h1
            have heq := List.mem_singleton.mp h1
            injection heq with h3 h4
            refine ⟨0, Nat.succ_pos _, by omega, ?_, ?_⟩
            · show (band_lo_from rs (re :: rest) 0 ≤ cs ∧
                    cs ≤ (re :: rest).getD 0 0) ∨ _
              exact hcnd
            · exact h4
          · rw [if_neg hcnd] at h1
            exact absurd h1 (List.not_mem_nil _)
        · obtain ⟨t, ht, hrr, hcnd, hg⟩ := (ih cs ce (re + 1) (r0 + 1) rr g).mp h2
          refine ⟨t + 1, Nat.succ_lt_succ ht, by omega, ?_, ?_⟩
          · rw [band_lo_from_cons, List.getD_cons_succ]
            exact hcnd
          · rw [band_lo_from_cons, List.getD_cons_succ]
            exact hg
      · rintro ⟨t, ht, hrr, hcnd, hg⟩
        simp only [row_deps_from]
        apply List.mem_append.mpr
        cases t with
        | zero =>
            left
            have hcnd0 : (rs ≤ cs ∧ cs ≤ re) ∨ (cs ≤ rs ∧ rs ≤ ce) := hcnd
            rw [if_pos hcnd0]
            apply List.mem_singleton.mpr
            have hrr0 : rr = r0 := by omega
            rw [hrr0, hg]
            rfl
        | succ t' =>
            right
            apply (ih cs ce (re + 1) (r0 + 1) rr g).mpr
            refine ⟨t', Nat.lt_of_succ_lt_succ ht, by omega, ?_, ?_⟩
            · rw [← band_lo_from_cons, ← List.getD_cons_succ (d := 0)]
              exact hcnd
            · rw [← band_lo_from_cons, ← List.getD_cons_succ (d := 0)]
              exact hg

lemma column_deps_from_length (rbs : List Nat) :
    ∀ (cs0 : Nat) (cbs : List Nat), (column_deps_from rbs cs0 cbs).length = cbs.length := by
  intro cs0 cbs
  induction cbs generalizing cs0 with
  | nil => rfl
  | cons ce rest ih =>
      simp only [column_deps_from, List.length_cons]
      rw [ih]

lemma column_deps_from_getD (rbs : List Nat) :
    ∀ (cbs : List Nat) (cs0 c : Nat), c < cbs.length →
      (column_deps_from rbs cs0 cbs).getD c [] =
        row_deps_from (band_lo_from cs0 cbs c) (cbs.getD c 0) 0 0 rbs := by
  intro cbs
  induction cbs with
  | nil =>
      intro cs0 c hc
      exact absurd hc (Nat.not_lt_zero c)
  | cons ce rest ih =>
      intro cs0 c hc
      cases c with
      | zero => rfl
      | succ c' =>
          show (column_deps_from rbs (ce + 1) rest).getD c' [] = _
          rw [ih (ce + 1) c' (Nat.lt_of_succ_lt_succ hc),
              band_lo_from_cons, List.getD_cons_succ]

lemma row_deps_from_key_bounds (rbs : List Nat) (cs ce rs r0 : Nat) :
    ∀ p ∈ row_deps_from cs ce rs r0 rbs, r0 ≤ p.1 ∧ p.1 < r0 + rbs.length := by
  rintro ⟨rr, g⟩ hp
  obtain ⟨t, ht, hrr, -, -⟩ := (row_deps_from_mem rbs cs ce rs r0 rr g).mp hp
  omega

lemma row_deps_from_sorted (rbs : List Nat) :
    ∀ (cs ce rs r0 : Nat),
      (row_deps_from cs ce rs r0 rbs).Pairwise (fun a b => a.1 < b.1) := by
  induction rbs with
  | nil =>
      intro cs ce rs r0
      simp [row_deps_from]
  | cons re rest ih =>
      intro cs ce rs r0
      simp only [row_deps_from]
      apply List.pairwise_append.mpr
      refine ⟨?_, ih cs ce (re + 1) (r0 + 1), ?_⟩
      · split
        · exact List.pairwise_singleton _ _
        · exact List.Pairwise.nil
      · intro a ha b hb
        have hb1 := (row_deps_from_key_bounds rest cs ce (re + 1) (r0 + 1) b hb).1
        have ha1 : a.1 = r0 := by
          by_cases hcnd : (cs ≥ rs ∧ cs ≤ re) ∨ (rs ≥ cs ∧ rs ≤ ce)
          · rw [if_pos hcnd] at ha
            rw [List.mem_singleton.mp ha]
          · rw [if_neg hcnd] at ha
            exact absurd ha (List.not_mem_nil _)
        omega

lemma chain_band_valid (bs : List Nat) (h : List.Chain' (· < ·) bs)
    (t : Nat) (ht : t < bs.length) : band_lo_from 0 bs t ≤ bs.getD t 0 := by
  cases t with
  | zero => exact Nat.zero_le _
  | succ t' =>
      show bs.getD t' 0 + 1 ≤ bs.getD (t' + 1) 0
      rw [List.getD_eq_getElem bs 0 (by omega), List.getD_eq_getElem bs 0 ht]
      exact Nat.succ_le_of_lt (List.chain'_iff_get.mp h t' (by omega))

/-- Claim C6: given sorted inclusive stop-index lists delimiting consecutive
row and column bands, `find_column_dependencies` returns for each column band
`c` a map (sorted association list) that contains row band `r` iff `r`'s
inclusive interval intersects `c`'s, mapped to exactly the overlap
`[max(row_start, col_start), min(row_end, column_end)]`. -/
theorem find_column_dependencies_spec (rbs cbs : List Nat)
    (hrchain : List.Chain' (· < ·) rbs) (hcchain : List.Chain' (· < ·) cbs) :
    (find_column_dependencies rbs cbs).length = cbs.length ∧
    (∀ c, c < cbs.length →
      ((find_column_dependencies rbs cbs).getD c []).Pairwise (fun a b => a.1 < b.1) ∧
      (∀ rr g, (rr, g) ∈ (find_column_dependencies rbs cbs).getD c [] ↔
        rr < rbs.length ∧
        band_lo_from 0 rbs rr ≤ cbs.getD c 0 ∧
        band_lo_from 0 cbs c ≤ rbs.getD rr 0 ∧
        g = ⟨max (band_lo_from 0 rbs rr) (band_lo_from 0 cbs c),
             min (rbs.getD rr 0) (cbs.getD c 0)⟩)) := by
  refine ⟨column_deps_from_length rbs 0 cbs, ?_⟩
  intro c hc
  rw [show find_column_dependencies rbs cbs = column_deps_from rbs 0 cbs from rfl,
      column_deps_from_getD rbs cbs 0 c hc]
  refine ⟨row_deps_from_sorted rbs _ _ _ _, ?_⟩
  intro rr g
  rw [row_deps_from_mem]
  have hcv := chain_band_valid cbs hcchain c hc
  constructor
  · rintro ⟨t, ht, hrr, hcnd, hg⟩
    have htrr : t = rr := by omega
    subst htrr
    have hrv := chain_band_valid rbs hrchain t ht
    exact ⟨ht, by omega, by omega, hg⟩
  · rintro ⟨hrrlen, h1, h2, hg⟩
    have hrv := chain_band_valid rbs hrchain rr hrrlen
    refine ⟨rr, hrrlen, by omega, ?_, hg⟩
    rcases le_total (band_lo_from 0 rbs rr) (band_lo_from 0 cbs c) with h | h
    · exact Or.inl ⟨h, h2⟩
    · exact Or.inr ⟨h, h1⟩

/-- Witness for `find_column_dependencies_spec` with row stops `[2, 4]` and
column stops `[1, 4]`. -/
theorem find_column_dependencies_spec_witness :
    List.Chain' (· < ·) [2, 4] ∧ List.Chain' (· < ·) [1, 4] ∧
    ((find_column_dependencies [2, 4] [1, 4]).length = [1, 4].length ∧
    (∀ c, c < [1, 4].length →
      ((find_column_dependencies [2, 4] [1, 4]).getD c []).Pairwise
          (fun a b => a.1 < b.1) ∧
      (∀ rr g, (rr, g) ∈ (find_column_dependencies [2, 4] [1, 4]).getD c [] ↔
        rr < [2, 4].length ∧
        band_lo_from 0 [2, 4] rr ≤ [1, 4].getD c 0 ∧
        band_lo_from 0 [1, 4] c ≤ [2, 4].getD rr 0 ∧
        g = ⟨max (band_lo_from 0 [2, 4] rr) (band_lo_from 0 [1, 4] c),
             min ([2, 4].getD rr 0) ([1, 4].getD c 0)⟩))) :=
  ⟨by simp [List.chain'_cons], by simp [List.chain'_cons],
   find_column_dependencies_spec [2, 4] [1, 4] (by simp [List.chain'_cons])
     (by simp [List.chain'_cons])⟩

/- ----------------------------------------------------------------
   Message schedule (src/distribution.cpp)
   ---------------------------------------------------------------- -/

inductive message_direction where
  | send
  | receive
deriving DecidableEq, Repr

/-- `message(direction, target rank, range)` from distribution.hpp as used by
`dependencies_to_messages` and `exchange_results`. -/
structure message where
  message_dir : message_direction
  target : Nat
  range : grid_limits
deriving DecidableEq, Repr

/-- `round_robin_wheel::spin` from src/distribution.cpp: return the current
index, then advance, wrapping to 0 when the incremented index reaches
`size`. -/
def round_robin_spin (size current_index : Nat) : Nat × Nat :=
  (current_index, if current_index + 1 = size then 0 else current_index + 1)

/-- `messages[k].push_back(m)`.  (`List.set` is a no-op out of range, which
never happens for the ranks the loop produces.) -/
def push_message (msgs : List (List message)) (k : Nat) (m : message) :
    List (List message) :=
  msgs.set k (msgs.getD k [] ++ [m])

/-- The iteration space of the triple loop in `dependencies_to_messages`:
column `c` (outer), then each `(row, limits)` entry of that column's
dependency map in map order, then receiver row `r` (inner). -/
def d2m_iter (col_deps : List (List (Nat × grid_limits))) (num_rows : Nat) :
    List (Nat × Nat × Nat × grid_limits) :=
  (List.range col_deps.length).flatMap (fun c =>
    (col_deps.getD c []).flatMap (fun rl =>
      (List.range num_rows).map (fun r => (c, rl.1, r, rl.2))))

/-- One step of the `dependencies_to_messages` loop body, processing the
assignment `(c, row, r, limits)` on the state (message lists, wheel states):
compute `receiver_rank = r * num_cols + c`; pick the sender (the receiver
itself when `row = r`, else `row * num_cols + wheel[row].spin()`); push the
receive onto the receiver's list and the send onto the sender's list. -/
def d2m_step (num_cols : Nat)
    (st : List (List message) × List Nat) (a : Nat × Nat × Nat × grid_limits) :
    List (List message) × List Nat :=
  let c := a.1
  let row := a.2.1
  let r := a.2.2.1
  let limits := a.2.2.2
  let receiver_rank := r * num_cols + c
  let sender_wheels : Nat × List Nat :=
    if row = r then (receiver_rank, st.2)
    else
      let spun := round_robin_spin num_cols (st.2.getD row 0)
      (row * num_cols + spun.1, st.2.set row spun.2)
  let msgs1 := push_message st.1 receiver_rank
    ⟨message_direction.receive, sender_wheels.1, limits⟩
  let msgs2 := push_message msgs1 sender_wheels.1
    ⟨message_direction.send, receiver_rank, limits⟩
  (msgs2, sender_wheels.2)

/-- `dependencies_to_messages` from src/distribution.cpp: fold the loop body
over the iteration space, starting from `num_rows * num_cols` empty message
lists and one wheel per row, each of size `num_cols` and starting at 0. -/
def dependencies_to_messages (col_deps : List (List (Nat × grid_limits)))
    (num_rows num_cols : Nat) : List (List message) :=
  ((d2m_iter col_deps num_rows).foldl (d2m_step num_cols)
    (List.replicate (num_rows * num_cols) [], List.replicate num_rows 0)).1

/-- `plan.at(k)` on the association-list embedding of the plan. -/
def plan_at (plan : List (Nat × element_subgrid)) (k : Nat) : element_subgrid :=
  ((plan.find? (fun p => p.1 == k)).map Prod.snd).getD ⟨0, 0, 0, 0⟩

/-- `generate_messages` from src/distribution.cpp: derive the row/column
stop boundaries from the plan, build the column dependencies, then the
message lists. -/
def generate_messages (plan : List (Nat × element_subgrid)) :
    List (List message) :=
  let num_cols := get_num_subgrid_cols plan.length
  let num_rows := plan.length / num_cols
  let row_boundaries :=
    (List.range num_rows).map (fun i => (plan_at plan (i * num_cols)).row_stop)
  let col_boundaries :=
    (List.range num_cols).map (fun i => (plan_at plan i).col_stop)
  dependencies_to_messages
    (find_column_dependencies row_boundaries col_boundaries) num_rows num_cols

/-- The wheel-resolution pass of the loop in isolation: thread the per-row
wheels through the iteration space, yielding for each assignment the resolved
`(sender, receiver, limits)` event. -/
def resolve_senders (num_cols : Nat) :
    List Nat → List (Nat × Nat × Nat × grid_limits) → List (Nat × Nat × grid_limits)
  | _, [] => []
  | wheels, a :: rest =>
      let receiver_rank := a.2.2.1 * num_cols + a.1
      if a.2.1 = a.2.2.1 then
        (receiver_rank, receiver_rank, a.2.2.2) ::
          resolve_senders num_cols wheels rest
      else
        let spun := round_robin_spin num_cols (wheels.getD a.2.1 0)
        (a.2.1 * num_cols + spun.1, receiver_rank, a.2.2.2) ::
          resolve_senders num_cols (wheels.set a.2.1 spun.2) rest

/-- Push one resolved event `(sender, receiver, limits)`: the receive entry at
the receiver first, then the send entry at the sender (the source's order of
the two `push_back`s). -/
def push_event (msgs : List (List message)) (e : Nat × Nat × grid_limits) :
    List (List message) :=
  push_message
    (push_message msgs e.2.1 ⟨message_direction.receive, e.1, e.2.2⟩)
    e.1 ⟨message_direction.send, e.2.1, e.2.2⟩

def build_messages (msgs : List (List message))
    (evs : List (Nat × Nat × grid_limits)) : List (List message) :=
  evs.foldl push_event msgs

/-- Number of times a receiving rank in row `row` has been served by a sender
from another row, within a processed prefix of the iteration space — the
number of times that row's round-robin wheel has been spun. -/
def wheel_count (done : List (Nat × Nat × Nat × grid_limits)) (row : Nat) : Nat :=
  (done.filter (fun b => b.2.1 = row ∧ b.2.1 ≠ b.2.2.1)).length

/-- The two entries rank `i`'s message list gains from one resolved event:
the receive (at the receiver) before the send (at the sender); for a
same-rank event both land on the single owning rank, receive first. -/
def entries_for (i : Nat) (e : Nat × Nat × grid_limits) : List message :=
  (if e.2.1 = i then [⟨message_direction.receive, e.1, e.2.2⟩] else []) ++
  (if e.1 = i then [⟨message_direction.send, e.2.1, e.2.2⟩] else [])

lemma push_message_length (msgs : List (List message)) (k : Nat) (m : message) :
    (push_message msgs k m).length = msgs.length := by
  simp [push_message]

lemma getD_map_range {α : Type} (R i : Nat) (hi : i < R) (f : Nat → α) (d : α) :
    ((List.range R).map f).getD i d = f i := by
  rw [List.getD_eq_getElem _ _ (by simpa using hi)]
  simp

lemma getD_set_self {α : Type} (l : List α) (k : Nat) (x d : α) (h : k < l.length) :
    (l.set k x).getD k d = x := by
  rw [List.getD_eq_getElem _ _ (by simpa using h)]
  exact List.getElem_set_self _

lemma getD_set_ne {α : Type} (l : List α) (k i : Nat) (x d : α) (h : k ≠ i) :
    (l.set k x).getD i d = l.getD i d := by
  rw [List.getD_eq_getElem?_getD, List.getD_eq_getElem?_getD, List.getElem?_set_ne h]

lemma push_message_getD_self (msgs : List (List message)) (k : Nat) (m : message)
    (h : k < msgs.length) :
    (push_message msgs k m).getD k [] = msgs.getD k [] ++ [m] :=
  getD_set_self msgs k _ [] h

lemma push_message_getD_ne (msgs : List (List message)) (k i : Nat) (m : message)
    (h : k ≠ i) : (push_message msgs k m).getD i [] = msgs.getD i [] :=
  getD_set_ne msgs k i _ [] h

/-- Splitting the combined fold of `dependencies_to_messages` into the wheel
pass (`resolve_senders`) followed by the list-building pass
(`build_messages`). -/
lemma foldl_d2m_step_eq (num_cols : Nat) :
    ∀ (evs : List (Nat × Nat × Nat × grid_limits))
      (msgs : List (List message)) (wheels : List Nat),
      (evs.foldl (d2m_step num_cols) (msgs, wheels)).1 =
        build_messages msgs (resolve_senders num_cols wheels evs) := by
  intro evs
  induction evs with
  | nil => intro msgs wheels; rfl
  | cons a rest ih =>
      intro msgs wheels
      by_cases h : a.2.1 = a.2.2.1
      · show (rest.foldl (d2m_step num_cols) (d2m_step num_cols (msgs, wheels) a)).1 = _
        rw [show d2m_step num_cols (msgs, wheels) a =
              (push_event msgs (a.2.2.1 * num_cols + a.1, a.2.2.1 * num_cols + a.1, a.2.2.2),
               wheels) by
            simp only [d2m_step, if_pos h, push_event]
        ]
        rw [ih]
        simp only [resolve_senders, if_pos h]
        rfl
      · show (rest.foldl (d2m_step num_cols) (d2m_step num_cols (msgs, wheels) a)).1 = _
        rw [show d2m_step num_cols (msgs, wheels) a =
              (push_event msgs
                 (a.2.1 * num_cols + (round_robin_spin num_cols (wheels.getD a.2.1 0)).1,
                  a.2.2.1 * num_cols + a.1, a.2.2.2),
               wheels.set a.2.1 (round_robin_spin num_cols (wheels.getD a.2.1 0)).2) by
            simp only [d2m_step, if_neg h, push_event]
        ]
        rw [ih]
        simp only [resolve_senders, if_neg h]
        rfl

lemma dependencies_to_messages_eq_build
    (col_deps : List (List (Nat × grid_limits))) (num_rows num_cols : Nat) :
    dependencies_to_messages col_deps num_rows num_cols =
      build_messages (List.replicate (num_rows * num_cols) [])
        (resolve_senders num_cols (List.replicate num_rows 0)
          (d2m_iter col_deps num_rows)) :=
  foldl_d2m_step_eq num_cols _ _ _

lemma build_messages_length (msgs : List (List message)) :
    ∀ evs, (build_messages msgs evs).length = msgs.length := by
  intro evs
  induction evs generalizing msgs with
  | nil => rfl
  | cons e rest ih =>
      show (build_messages (push_event msgs e) rest).length = _
      rw [ih]
      simp [push_event, push_message_length]

/-- Projection of the built message lists: rank `i`'s list is the
concatenation, over the events in order, of the entries that event gives
rank `i`. -/
lemma build_messages_getD (R : Nat) :
    ∀ (evs : List (Nat × Nat × grid_limits)) (msgs : List (List message)),
      msgs.length = R → (∀ e ∈ evs, e.1 < R ∧ e.2.1 < R) →
      ∀ i, i < R →
        (build_messages msgs evs).getD i [] =
          msgs.getD i [] ++ evs.flatMap (entries_for i) := by
  intro evs
  induction evs with
  | nil => intro msgs hlen hok i hi; simp [build_messages]
  | cons e rest ih =>
      intro msgs hlen hok i hi
      obtain ⟨hs, hr⟩ := hok e (List.mem_cons_self e rest)
      have hstep : (push_event msgs e).getD i [] = msgs.getD i [] ++ entries_for i e := by
        unfold push_event entries_for
        by_cases h1 : e.2.1 = i
        · by_cases h2 : e.1 = i
          · subst h2
            rw [if_pos h1, if_pos rfl, h1]
            rw [push_message_getD_self _ _ _ (by rw [push_message_length]; omega),
                push_message_getD_self _ _ _ (by omega)]
            simp
          · subst h1
            rw [if_pos rfl, if_neg h2]
            rw [push_message_getD_ne _ _ _ _ h2,
                push_message_getD_self _ _ _ (by omega)]
            simp
        · by_cases h2 : e.1 = i
          · subst h2
            rw [if_neg h1, if_pos rfl]
            rw [push_message_getD_self _ _ _ (by rw [push_message_length]; omega),
                push_message_getD_ne _ _ _ _ h1]
            simp
          · rw [if_neg h1, if_neg h2]
            rw [push_message_getD_ne _ _ _ _ h2, push_message_getD_ne _ _ _ _ h1]
            simp
      show (build_messages (push_event msgs e) rest).getD i [] = _
      rw [ih (push_event msgs e)
            (by simp [push_event, push_message_length, hlen])
            (fun b hb => hok b (List.mem_cons_of_mem e hb)) i hi,
          hstep]
      simp [List.flatMap_cons, List.append_assoc]

lemma succ_mod (m n : Nat) (hm : 0 < m) :
    (n + 1) % m = if n % m + 1 = m then 0 else n % m + 1 := by
  by_cases hm1 : m = 1
  · subst hm1
    simp [Nat.mod_one]
  · have h1m : 1 % m = 1 := Nat.mod_eq_of_lt (by omega)
    have hmod : (n + 1) % m = (n % m + 1) % m := by
      conv_lhs => rw [Nat.add_mod, h1m]
    rw [hmod]
    by_cases h : n % m + 1 = m
    · rw [if_pos h, h, Nat.mod_self]
    · have hlt : n % m + 1 < m := by
        have := Nat.mod_lt n hm
        omega
      rw [if_neg h, Nat.mod_eq_of_lt hlt]

lemma wheel_count_append_one (done : List (Nat × Nat × Nat × grid_limits))
    (a : Nat × Nat × Nat × grid_limits) (row : Nat) :
    wheel_count (done ++ [a]) row =
      wheel_count done row + (if a.2.1 = row ∧ a.2.1 ≠ a.2.2.1 then 1 else 0) := by
  unfold wheel_count
  rw [List.filter_append, List.length_append]
  congr 1
  rw [List.filter_singleton]
  by_cases h : a.2.1 = row ∧ a.2.1 ≠ a.2.2.1
  · rw [if_pos h]
    obtain ⟨h1, h2⟩ := h
    subst h1
    simp [h2]
  · rw [if_neg h]
    simp [h]

/-- The sender chosen for each assignment, expressed without wheel state:
same rank when the receiver's row owns the data, else the round-robin pick
`row * num_cols + (spins so far) % num_cols`, where the spin count is the
number of served assignments (`wheel_count`) in the processed prefix. -/
def resolved_spec (cols : Nat) :
    List (Nat × Nat × Nat × grid_limits) → List (Nat × Nat × Nat × grid_limits) →
      List (Nat × Nat × grid_limits)
  | _, [] => []
  | done, a :: rest =>
      (if a.2.1 = a.2.2.1 then a.2.2.1 * cols + a.1
       else a.2.1 * cols + wheel_count done a.2.1 % cols,
       a.2.2.1 * cols + a.1, a.2.2.2) :: resolved_spec cols (done ++ [a]) rest

lemma resolve_senders_eq_spec (cols : Nat) (hc : 0 < cols) :
    ∀ (evs done : List (Nat × Nat × Nat × grid_limits)) (wheels : List Nat),
      (∀ e ∈ evs, e.2.1 < wheels.length) →
      (∀ row, wheels.getD row 0 = wheel_count done row % cols) →
      resolve_senders cols wheels evs = resolved_spec cols done evs := by
  intro evs
  induction evs with
  | nil => intro done wheels hrows hw; rfl
  | cons a rest ih =>
      intro done wheels hrows hw
      have harow : a.2.1 < wheels.length := hrows a (List.mem_cons_self a rest)
      by_cases h : a.2.1 = a.2.2.1
      · simp only [resolve_senders, resolved_spec, if_pos h]
        congr 1
        apply ih (done ++ [a]) wheels
          (fun e he => hrows e (List.mem_cons_of_mem a he))
        intro row
        rw [hw row, wheel_count_append_one]
        have : ¬ (a.2.1 = row ∧ a.2.1 ≠ a.2.2.1) := fun hcon => hcon.2 h
        rw [if_neg this, Nat.add_zero]
      · simp only [resolve_senders, resolved_spec, if_neg h]
        congr 1
        · show (a.2.1 * cols + wheels.getD a.2.1 0, a.2.2.1 * cols + a.1, a.2.2.2) = _
          rw [hw a.2.1]
        · apply ih (done ++ [a]) (wheels.set a.2.1
            (round_robin_spin cols (wheels.getD a.2.1 0)).2)
          · intro e he
            rw [List.length_set]
            exact hrows e (List.mem_cons_of_mem a he)
          · intro row
            by_cases hr : row = a.2.1
            · subst hr
              rw [getD_set_self _ _ _ _ harow, wheel_count_append_one,
                  if_pos ⟨rfl, h⟩]
              show (if wheels.getD a.2.1 0 + 1 = cols then 0
                    else wheels.getD a.2.1 0 + 1) = _
              rw [hw a.2.1, ← succ_mod cols (wheel_count done a.2.1) hc]
            · rw [getD_set_ne _ _ _ _ _ (fun hh => hr hh.symm), hw row,
                  wheel_count_append_one]
              have : ¬ (a.2.1 = row ∧ a.2.1 ≠ a.2.2.1) := fun hcon => hr hcon.1.symm
              rw [if_neg this, Nat.add_zero]

lemma resolved_spec_length (cols : Nat) :
    ∀ (evs done : List (Nat × Nat × Nat × grid_limits)),
      (resolved_spec cols done evs).length = evs.length := by
  intro evs
  induction evs with
  | nil => intro done; rfl
  | cons a rest ih =>
      intro done
      simp only [resolved_spec, List.length_cons]
      rw [ih]

lemma resolved_spec_getD (cols : Nat) :
    ∀ (evs done : List (Nat × Nat × Nat × grid_limits)) (k : Nat), k < evs.length →
      (resolved_spec cols done evs).getD k (0, 0, ⟨0, 0⟩) =
        ((fun a =>
          (if a.2.1 = a.2.2.1 then a.2.2.1 * cols + a.1
           else a.2.1 * cols + wheel_count (done ++ evs.take k) a.2.1 % cols,
           a.2.2.1 * cols + a.1, a.2.2.2)) (evs.getD k (0, 0, 0, ⟨0, 0⟩))) := by
  intro evs
  induction evs with
  | nil => intro done k hk; exact absurd hk (Nat.not_lt_zero k)
  | cons a rest ih =>
      intro done k hk
      cases k with
      | zero =>
          show (resolved_spec cols done (a :: rest)).getD 0 _ = _
          simp only [resolved_spec, List.getD_cons_zero, List.take_zero,
            List.append_nil]
      | succ k' =>
          show (resolved_spec cols done (a :: rest)).getD (k' + 1) _ = _
          simp only [resolved_spec, List.getD_cons_succ, List.take_succ_cons]
          rw [ih (done ++ [a]) k' (Nat.lt_of_succ_lt_succ hk), List.append_assoc]
          rfl

lemma entries_for_count_send (i t : Nat) (g : grid_limits) (e : Nat × Nat × grid_limits) :
    (entries_for i e).count ⟨message_direction.send, t, g⟩ =
      if e = (i, t, g) then 1 else 0 := by
  rcases e with ⟨s', r', g'⟩
  unfold entries_for
  rw [List.count_append]
  by_cases h2 : s' = i <;> by_cases h3 : r' = t <;> by_cases h4 : g' = g <;>
    by_cases h5 : r' = i <;>
      simp_all [List.count_cons, List.count_nil, Prod.ext_iff]

lemma entries_for_count_recv (i s : Nat) (g : grid_limits) (e : Nat × Nat × grid_limits) :
    (entries_for i e).count ⟨message_direction.receive, s, g⟩ =
      if e = (s, i, g) then 1 else 0 := by
  rcases e with ⟨s', r', g'⟩
  unfold entries_for
  rw [List.count_append]
  by_cases h2 : r' = i <;> by_cases h3 : s' = s <;> by_cases h4 : g' = g <;>
    by_cases h5 : s' = i <;>
      simp_all [List.count_cons, List.count_nil, Prod.ext_iff]

lemma flatMap_entries_count_send (i t : Nat) (g : grid_limits) :
    ∀ evs : List (Nat × Nat × grid_limits),
      (evs.flatMap (entries_for i)).count ⟨message_direction.send, t, g⟩ =
        evs.count (i, t, g) := by
  intro evs
  induction evs with
  | nil => rfl
  | cons e rest ih =>
      rw [List.flatMap_cons, List.count_append, ih, entries_for_count_send,
          List.count_cons]
      by_cases h : e = (i, t, g)
      · rw [if_pos h, if_pos (by exact beq_iff_eq.mpr h)]
        omega
      · rw [if_neg h, if_neg (by simpa using h)]
        omega

lemma flatMap_entries_count_recv (i s : Nat) (g : grid_limits) :
    ∀ evs : List (Nat × Nat × grid_limits),
      (evs.flatMap (entries_for i)).count ⟨message_direction.receive, s, g⟩ =
        evs.count (s, i, g) := by
  intro evs
  induction evs with
  | nil => rfl
  | cons e rest ih =>
      rw [List.flatMap_cons, List.count_append, ih, entries_for_count_recv,
          List.count_cons]
      by_cases h : e = (s, i, g)
      · rw [if_pos h, if_pos (by exact beq_iff_eq.mpr h)]
        omega
      · rw [if_neg h, if_neg (by simpa using h)]
        omega

lemma d2m_iter_mem (col_deps : List (List (Nat × grid_limits))) (num_rows : Nat) :
    ∀ e, e ∈ d2m_iter col_deps num_rows ↔
      ∃ c rl r, c < col_deps.length ∧ rl ∈ col_deps.getD c [] ∧ r < num_rows ∧
        e = (c, rl.1, r, rl.2) := by
  intro e
  unfold d2m_iter
  simp only [List.mem_flatMap, List.mem_range, List.mem_map]
  constructor
  · rintro ⟨c, hc, rl, hrl, r, hr, rfl⟩
    exact ⟨c, rl, r, hc, hrl, hr, rfl⟩
  · rintro ⟨c, rl, r, hc, hrl, hr, rfl⟩
    exact ⟨c, hc, rl, hrl, r, hr, rfl⟩

/-- Every resolved event comes from one assignment: its range and receiver are
the assignment's, and its sender is either the receiver itself (same-row case)
or some member `row * cols + w`, `w < cols`, of the dependency row band. -/
lemma resolved_spec_mem (cols : Nat) (hc : 0 < cols) :
    ∀ (evs done : List (Nat × Nat × Nat × grid_limits)),
      ∀ e' ∈ resolved_spec cols done evs,
        ∃ e ∈ evs, e'.2.2 = e.2.2.2 ∧ e'.2.1 = e.2.2.1 * cols + e.1 ∧
          ((e.2.1 = e.2.2.1 ∧ e'.1 = e'.2.1) ∨
           (e.2.1 ≠ e.2.2.1 ∧ ∃ w, w < cols ∧ e'.1 = e.2.1 * cols + w)) := by
  intro evs
  induction evs with
  | nil => intro done e' he'; exact absurd he' (List.not_mem_nil e')
  | cons a rest ih =>
      intro done e' he'
      simp only [resolved_spec] at he'
      rcases List.mem_cons.mp he' with rfl | htail
      · by_cases h : a.2.1 = a.2.2.1
        · rw [if_pos h]
          exact ⟨a, List.mem_cons_self a rest, rfl, rfl, Or.inl ⟨h, rfl⟩⟩
        · rw [if_neg h]
          exact ⟨a, List.mem_cons_self a rest, rfl, rfl,
            Or.inr ⟨h, wheel_count done a.2.1 % cols, Nat.mod_lt _ hc, rfl⟩⟩
      · obtain ⟨e, he, h1, h2, h3⟩ := ih (done ++ [a]) e' htail
        exact ⟨e, List.mem_cons_of_mem a he, h1, h2, h3⟩

/-- Decomposition `r * cols + c` with `c < cols` is injective. -/
lemma rank_decomp (cols r1 c1 r2 c2 : Nat) (h1 : c1 < cols) (h2 : c2 < cols)
    (heq : r1 * cols + c1 = r2 * cols + c2) : r1 = r2 ∧ c1 = c2 := by
  have hc : 0 < cols := by omega
  have hd1 : (r1 * cols + c1) / cols = r1 := by
    rw [mul_comm, Nat.mul_add_div hc, Nat.div_eq_of_lt h1, Nat.add_zero]
  have hd2 : (r2 * cols + c2) / cols = r2 := by
    rw [mul_comm, Nat.mul_add_div hc, Nat.div_eq_of_lt h2, Nat.add_zero]
  have hr : r1 = r2 := by rw [← hd1, ← hd2, heq]
  constructor
  · exact hr
  · subst hr
    omega

/-- Two distinct assignments never yield the same (sender, receiver) pair:
the receiver determines `(r, c)` and the sender's quotient determines `row`. -/
lemma resolved_spec_pairwise (cols rows : Nat) (hc : 0 < cols) :
    ∀ (evs done : List (Nat × Nat × Nat × grid_limits)),
      (∀ e ∈ evs, e.1 < cols) →
      evs.Pairwise (fun a b => (a.1, a.2.1, a.2.2.1) ≠ (b.1, b.2.1, b.2.2.1)) →
      (resolved_spec cols done evs).Pairwise
        (fun x y => ¬ (x.1 = y.1 ∧ x.2.1 = y.2.1)) := by
  intro evs
  induction evs with
  | nil => intro done hb hp; exact List.Pairwise.nil
  | cons a rest ih =>
      intro done hb hp
      obtain ⟨hpa, hprest⟩ := List.pairwise_cons.mp hp
      simp only [resolved_spec]
      apply List.pairwise_cons.mpr
      refine ⟨?_, ih (done ++ [a]) (fun e he => hb e (List.mem_cons_of_mem a he)) hprest⟩
      intro y hy hcon
      obtain ⟨hsend, hrecv⟩ := hcon
      obtain ⟨b, hbmem, hblim, hbrecv, hbsend⟩ := resolved_spec_mem cols hc rest (done ++ [a]) y hy
      have hac : a.1 < cols := hb a (List.mem_cons_self a rest)
      have hbc : b.1 < cols := hb b (List.mem_cons_of_mem a hbmem)
      -- receiver components agree
      have hyrecv : y.2.1 = a.2.2.1 * cols + a.1 := by
        rw [hbrecv] at hrecv ⊢
        rw [← hrecv]
      have hrc : b.2.2.1 = a.2.2.1 ∧ b.1 = a.1 := by
        have := hbrecv.symm.trans hyrecv
        exact rank_decomp cols b.2.2.1 b.1 a.2.2.1 a.1 hbc hac this
      -- the head's sender
      have hrowb : b.2.1 = a.2.1 := by
        have hsval : (if a.2.1 = a.2.2.1 then a.2.2.1 * cols + a.1
            else a.2.1 * cols + wheel_count done a.2.1 % cols) = y.1 := hsend
        by_cases hsame : a.2.1 = a.2.2.1
        · rw [if_pos hsame] at hsval
          rcases hbsend with ⟨hbsame, hbs⟩ | ⟨hbne, w, hw, hbs⟩
          · -- y.1 = y.2.1 = b receiver; b.row = b.r = a.r = a.row
            rw [hbsame]
            rw [hrc.1]
            exact hsame.symm ▸ rfl
          · -- y.1 = b.row*cols + w; quotient gives b.row = a.r = a.row
            have h1 : b.2.1 * cols + w = a.2.2.1 * cols + a.1 := by
              rw [← hbs, ← hsval]
            have := rank_decomp cols b.2.1 w a.2.2.1 a.1 hw hac h1
            rw [this.1, ← hsame]
        · rw [if_neg hsame] at hsval
          have hwa : wheel_count done a.2.1 % cols < cols := Nat.mod_lt _ hc
          rcases hbsend with ⟨hbsame, hbs⟩ | ⟨hbne, w, hw, hbs⟩
          · -- y.1 = b receiver = b.r*cols + b.1
            have h1 : b.2.2.1 * cols + b.1
                = a.2.1 * cols + wheel_count done a.2.1 % cols := by
              rw [← hbrecv, ← hbs, ← hsval]
            have := rank_decomp cols b.2.2.1 b.1 a.2.1 (wheel_count done a.2.1 % cols)
              hbc hwa h1
            rw [hbsame, this.1]
          · have h1 : b.2.1 * cols + w
                = a.2.1 * cols + wheel_count done a.2.1 % cols := by
              rw [← hbs, ← hsval]
            exact (rank_decomp cols b.2.1 w a.2.1 (wheel_count done a.2.1 % cols)
              hw hwa h1).1
      exact hpa b hbmem (by rw [hrowb, hrc.1, hrc.2])

/-- A list of triples with pairwise distinct (sender, receiver) components
contains any given value at most once. -/
lemma count_le_one_of_pairwise (l : List (Nat × Nat × grid_limits))
    (hp : l.Pairwise (fun x y => ¬ (x.1 = y.1 ∧ x.2.1 = y.2.1)))
    (v : Nat × Nat × grid_limits) : l.count v ≤ 1 := by
  induction l with
  | nil => simp
  | cons x rest ih =>
      obtain ⟨hx, hrest⟩ := List.pairwise_cons.mp hp
      rw [List.count_cons]
      by_cases h : x = v
      · subst h
        have hz : rest.count x = 0 := by
          rw [List.count_eq_zero]
          intro hmem
          exact hx x hmem ⟨rfl, rfl⟩
        simp [hz]
      · rw [if_neg (by simpa using fun hh => h hh)]
        simpa using ih hrest

lemma getD_replicate {α : Type} (n i : Nat) (x : α) :
    (List.replicate n x).getD i x = x := by
  by_cases h : i < n
  · rw [List.getD_eq_getElem _ _ (by simpa using h)]
    exact List.getElem_replicate x _
  · apply List.getD_eq_default
    rw [List.length_replicate]
    omega

lemma mul_add_lt (r c rows cols : Nat) (hr : r < rows) (hc : c < cols) :
    r * cols + c < rows * cols := by
  calc r * cols + c < r * cols + cols := by omega
    _ = (r + 1) * cols := by ring
    _ ≤ rows * cols := Nat.mul_le_mul_right cols (Nat.succ_le_of_lt hr)

lemma pairwise_flatMap {α β : Type} {R : β → β → Prop} {f : α → List β} :
    ∀ {l : List α}, (∀ a ∈ l, (f a).Pairwise R) →
      l.Pairwise (fun a b => ∀ x ∈ f a, ∀ y ∈ f b, R x y) →
      (l.flatMap f).Pairwise R := by
  intro l
  induction l with
  | nil => intro _ _; simp
  | cons a rest ih =>
      intro hin hcross
      obtain ⟨hca, hcrest⟩ := List.pairwise_cons.mp hcross
      rw [List.flatMap_cons]
      apply List.pairwise_append.mpr
      refine ⟨hin a (List.mem_cons_self a rest),
              ih (fun b hb => hin b (List.mem_cons_of_mem a hb)) hcrest, ?_⟩
      intro x hx y hy
      obtain ⟨b, hbmem, hyb⟩ := List.mem_flatMap.mp hy
      exact hca b hbmem x hx y hyb

lemma d2m_iter_pairwise (col_deps : List (List (Nat × grid_limits))) (rows : Nat)
    (hsorted : ∀ l ∈ col_deps, l.Pairwise (fun a b => a.1 < b.1)) :
    (d2m_iter col_deps rows).Pairwise
      (fun a b => (a.1, a.2.1, a.2.2.1) ≠ (b.1, b.2.1, b.2.2.1)) := by
  unfold d2m_iter
  have hmem_inner : ∀ c : Nat, ∀ x ∈ (col_deps.getD c []).flatMap
      (fun rl => (List.range rows).map (fun r => (c, rl.1, r, rl.2))),
      x.1 = c := by
    intro c x hx
    obtain ⟨rl, hrl, hx2⟩ := List.mem_flatMap.mp hx
    obtain ⟨r, hr, rfl⟩ := List.mem_map.mp hx2
    rfl
  apply pairwise_flatMap
  · intro c hc
    apply pairwise_flatMap
    · intro rl hrl
      rw [List.pairwise_map]
      apply List.Pairwise.imp ?_ (List.pairwise_lt_range rows)
      intro r1 r2 hlt
      simp only [Prod.mk.injEq, ne_eq, not_and]
      intro h1 h2 h3
      omega
    · have hc' : c < col_deps.length := List.mem_range.mp hc
      have hmem : col_deps.getD c [] ∈ col_deps := by
        rw [List.getD_eq_getElem _ _ hc']
        exact List.getElem_mem hc'
      apply List.Pairwise.imp ?_ (hsorted _ hmem)
      intro rl1 rl2 hklt x hx y hy
      obtain ⟨r1, hr1, rfl⟩ := List.mem_map.mp hx
      obtain ⟨r2, hr2, rfl⟩ := List.mem_map.mp hy
      simp only [Prod.mk.injEq, ne_eq, not_and]
      intro h1 h2 h3
      omega
  · apply List.Pairwise.imp ?_ (List.pairwise_lt_range col_deps.length)
    intro c1 c2 hlt x hx y hy
    have h1 := hmem_inner c1 x hx
    have h2 := hmem_inner c2 y hy
    simp only [Prod.mk.injEq, ne_eq, not_and]
    intro hcc
    omega

lemma dependencies_to_messages_counts (col_deps : List (List (Nat × grid_limits)))
    (rows cols : Nat) (hc : 0 < cols) (hlen : col_deps.length ≤ cols)
    (hkeys : ∀ l ∈ col_deps, ∀ p ∈ l, p.1 < rows)
    (hsorted : ∀ l ∈ col_deps, l.Pairwise (fun a b => a.1 < b.1)) :
    ∀ s t : Nat, ∀ g : grid_limits,
      ((dependencies_to_messages col_deps rows cols).getD s []).count
          ⟨message_direction.send, t, g⟩ =
        ((dependencies_to_messages col_deps rows cols).getD t []).count
          ⟨message_direction.receive, s, g⟩ ∧
      ((dependencies_to_messages col_deps rows cols).getD s []).count
          ⟨message_direction.send, t, g⟩ ≤ 1 := by
  intro s t g
  have hiterb : ∀ e ∈ d2m_iter col_deps rows,
      e.1 < cols ∧ e.2.1 < rows ∧ e.2.2.1 < rows := by
    intro e he
    obtain ⟨c, rl, r, hcl, hrl, hr, rfl⟩ := (d2m_iter_mem col_deps rows e).mp he
    have hmem : col_deps.getD c [] ∈ col_deps := by
      rw [List.getD_eq_getElem _ _ hcl]
      exact List.getElem_mem hcl
    exact ⟨by omega, hkeys _ hmem rl hrl, hr⟩
  have hres_eq : resolve_senders cols (List.replicate rows 0) (d2m_iter col_deps rows)
      = resolved_spec cols [] (d2m_iter col_deps rows) := by
    apply resolve_senders_eq_spec cols hc
    · intro e he
      rw [List.length_replicate]
      exact (hiterb e he).2.1
    · intro row
      rw [getD_replicate]
      show 0 = wheel_count [] row % cols
      simp [wheel_count]
  have hresb : ∀ e' ∈ resolved_spec cols [] (d2m_iter col_deps rows),
      e'.1 < rows * cols ∧ e'.2.1 < rows * cols := by
    intro e' he'
    obtain ⟨e, he, hlim, hrecv, hsend⟩ :=
      resolved_spec_mem cols hc (d2m_iter col_deps rows) [] e' he'
    obtain ⟨hec, herow, her⟩ := hiterb e he
    have hrecvb : e'.2.1 < rows * cols := by
      rw [hrecv]
      exact mul_add_lt _ _ _ _ her hec
    rcases hsend with ⟨-, hs⟩ | ⟨-, w, hw, hs⟩
    · rw [hs]
      exact ⟨hrecvb, hrecvb⟩
    · exact ⟨by rw [hs]; exact mul_add_lt _ _ _ _ herow hw, hrecvb⟩
  have hpair := resolved_spec_pairwise cols rows hc (d2m_iter col_deps rows) []
    (fun e he => (hiterb e he).1) (d2m_iter_pairwise col_deps rows hsorted)
  have hdm : dependencies_to_messages col_deps rows cols =
      build_messages (List.replicate (rows * cols) [])
        (resolved_spec cols [] (d2m_iter col_deps rows)) := by
    rw [dependencies_to_messages_eq_build, hres_eq]
  have hdm_len : (dependencies_to_messages col_deps rows cols).length = rows * cols := by
    rw [hdm, build_messages_length, List.length_replicate]
  have hproj : ∀ i, i < rows * cols →
      (dependencies_to_messages col_deps rows cols).getD i [] =
        (resolved_spec cols [] (d2m_iter col_deps rows)).flatMap (entries_for i) := by
    intro i hi
    rw [hdm, build_messages_getD (rows * cols) _ _ (List.length_replicate _ _) hresb i hi,
        getD_replicate]
    simp
  have hout : ∀ i, ¬ i < rows * cols →
      (dependencies_to_messages col_deps rows cols).getD i [] = [] := by
    intro i hi
    apply List.getD_eq_default
    omega
  by_cases hsin : s < rows * cols
  · by_cases htin : t < rows * cols
    · rw [hproj s hsin, hproj t htin, flatMap_entries_count_send,
          flatMap_entries_count_recv]
      exact ⟨rfl, count_le_one_of_pairwise _ hpair _⟩
    · have hzero : (resolved_spec cols [] (d2m_iter col_deps rows)).count (s, t, g) = 0 := by
        rw [List.count_eq_zero]
        intro hmem
        exact htin (hresb _ hmem).2
      rw [hproj s hsin, hout t htin, flatMap_entries_count_send, hzero]
      exact ⟨rfl, by omega⟩
  · have hzero : (resolved_spec cols [] (d2m_iter col_deps rows)).count (s, t, g) = 0 := by
      rw [List.count_eq_zero]
      intro hmem
      exact hsin (hresb _ hmem).1
    by_cases htin : t < rows * cols
    · rw [hout s hsin, hproj t htin, flatMap_entries_count_recv, hzero]
      exact ⟨by simp, by simp⟩
    · rw [hout s hsin, hout t htin]
      exact ⟨rfl, by simp⟩

lemma find_column_dependencies_structural (rbs cbs : List Nat) :
    (find_column_dependencies rbs cbs).length = cbs.length ∧
    (∀ l ∈ find_column_dependencies rbs cbs, ∀ p ∈ l, p.1 < rbs.length) ∧
    (∀ l ∈ find_column_dependencies rbs cbs, l.Pairwise (fun a b => a.1 < b.1)) := by
  have hgd : ∀ l ∈ find_column_dependencies rbs cbs, ∃ c, c < cbs.length ∧
      l = row_deps_from (band_lo_from 0 cbs c) (cbs.getD c 0) 0 0 rbs := by
    intro l hl
    obtain ⟨c, hcl, hceq⟩ := List.mem_iff_getElem.mp hl
    have hc2 : c < cbs.length := by
      rw [← column_deps_from_length rbs 0 cbs]
      exact hcl
    refine ⟨c, hc2, ?_⟩
    rw [← hceq, ← List.getD_eq_getElem _ [] hcl]
    exact column_deps_from_getD rbs cbs 0 c hc2
  refine ⟨column_deps_from_length rbs 0 cbs, ?_, ?_⟩
  · intro l hl p hp
    obtain ⟨c, hc2, rfl⟩ := hgd l hl
    have := row_deps_from_key_bounds rbs (band_lo_from 0 cbs c) (cbs.getD c 0) 0 0 p hp
    omega
  · intro l hl
    obtain ⟨c, hc2, rfl⟩ := hgd l hl
    exact row_deps_from_sorted rbs _ _ _ _

/-- Claim C2: in the per-rank message lists returned by `generate_messages`,
every send `(s → t, g)` has exactly one matching receive `(t ← s, g)` in rank
`t`'s list and conversely (the counts of matching sends and receives agree and
are at most one); taking `s = t` this covers the same-rank dependencies, which
are emitted as one matched send/receive pair on the single owning rank. -/
theorem generate_messages_symmetry (plan : List (Nat × element_subgrid))
    (s t : Nat) (g : grid_limits) :
    ((generate_messages plan).getD s []).count ⟨message_direction.send, t, g⟩ =
      ((generate_messages plan).getD t []).count ⟨message_direction.receive, s, g⟩ ∧
    ((generate_messages plan).getD s []).count ⟨message_direction.send, t, g⟩ ≤ 1 := by
  have hgm : generate_messages plan =
      dependencies_to_messages
        (find_column_dependencies
          ((List.range (plan.length / get_num_subgrid_cols plan.length)).map
            (fun i => (plan_at plan (i * get_num_subgrid_cols plan.length)).row_stop))
          ((List.range (get_num_subgrid_cols plan.length)).map
            (fun i => (plan_at plan i).col_stop)))
        (plan.length / get_num_subgrid_cols plan.length)
        (get_num_subgrid_cols plan.length) := rfl
  rw [hgm]
  obtain ⟨hl, hk, hsor⟩ := find_column_dependencies_structural
    ((List.range (plan.length / get_num_subgrid_cols plan.length)).map
      (fun i => (plan_at plan (i * get_num_subgrid_cols plan.length)).row_stop))
    ((List.range (get_num_subgrid_cols plan.length)).map
      (fun i => (plan_at plan i).col_stop))
  apply dependencies_to_messages_counts
  · exact get_num_subgrid_cols_pos _
  · rw [hl]
    simp
  · intro l hlm p hp
    have := hk l hlm p hp
    simpa using this
  · exact hsor

/- ----------------------------------------------------------------
   Claim C3: deadlock-free replay
   ---------------------------------------------------------------- -/

/-- Pop the front message of rank `i`'s remaining list. -/
def consume_head (st : List (List message)) (i : Nat) : List (List message) :=
  st.set i ((st.getD i []).tail)

/-- Blocking rendezvous replay of the per-rank message lists, each consumed
in its emitted order: the state can drain when either everything is consumed,
or some rank's next message targets itself (a local copy, served unilaterally
as in `exchange_results`), or some rank's next pending send finds the matching
receive as the next pending operation of its partner, in which case both
complete together. -/
inductive CanDrain : List (List message) → Prop where
  | done : ∀ st, (∀ l ∈ st, l = []) → CanDrain st
  | self : ∀ st i m, (st.getD i []).head? = some m → m.target = i →
      CanDrain (consume_head st i) → CanDrain st
  | pair : ∀ st s t g, s ≠ t →
      (st.getD s []).head? = some ⟨message_direction.send, t, g⟩ →
      (st.getD t []).head? = some ⟨message_direction.receive, s, g⟩ →
      CanDrain (consume_head (consume_head st s) t) → CanDrain st

lemma set_map_range_eq {α : Type} (R : Nat) (f g : Nat → α) (s : Nat) (v : α)
    (hs : s < R) (hagree : ∀ i, i < R → i ≠ s → f i = g i) (hv : v = g s) :
    ((List.range R).map f).set s v = (List.range R).map g := by
  apply List.ext_getElem
  · simp
  · intro n h1 h2
    have hn : n < R := by simpa using h2
    by_cases hns : n = s
    · subst hns
      rw [List.getElem_set_self, hv]
      simp
    · rw [List.getElem_set_ne (fun hh => hns hh.symm)]
      simp only [List.getElem_map, List.getElem_range]
      exact hagree n hn hns

lemma set2_map_range_eq {α : Type} (R : Nat) (f g : Nat → α) (s t : Nat) (vs vt : α)
    (hs : s < R) (ht : t < R) (hstne : s ≠ t)
    (hagree : ∀ i, i < R → i ≠ s → i ≠ t → f i = g i)
    (hvs : vs = g s) (hvt : vt = g t) :
    (((List.range R).map f).set s vs).set t vt = (List.range R).map g := by
  apply List.ext_getElem
  · simp
  · intro n h1 h2
    have hn : n < R := by simpa using h2
    by_cases hnt : n = t
    · subst hnt
      rw [List.getElem_set_self, hvt]
      simp
    · rw [List.getElem_set_ne (fun hh => hnt hh.symm)]
      by_cases hns : n = s
      · subst hns
        rw [List.getElem_set_self, hvs]
        simp
      · rw [List.getElem_set_ne (fun hh => hns hh.symm)]
        simp only [List.getElem_map, List.getElem_range]
        exact hagree n hn hns hnt

lemma can_drain_projection (R : Nat) :
    ∀ evs : List (Nat × Nat × grid_limits),
      (∀ e ∈ evs, e.1 < R ∧ e.2.1 < R) →
      CanDrain ((List.range R).map (fun i => evs.flatMap (entries_for i))) := by
  intro evs
  induction evs with
  | nil =>
      intro hok
      apply CanDrain.done
      intro l hl
      obtain ⟨i, hi, rfl⟩ := List.mem_map.mp hl
      rfl
  | cons e rest ih =>
      intro hok
      obtain ⟨hsR, hrR⟩ := hok e (List.mem_cons_self e rest)
      have hlen : ((List.range R).map
          (fun i => (e :: rest).flatMap (entries_for i))).length = R := by simp
      have hproj : ∀ i, i < R →
          ((List.range R).map (fun j => (e :: rest).flatMap (entries_for j))).getD i []
            = entries_for i e ++ rest.flatMap (entries_for i) := by
        intro i hi
        rw [getD_map_range R i hi]
        simp [List.flatMap_cons]
      by_cases hst : e.1 = e.2.1
      · -- same-rank event: two unilateral local-copy steps on rank e.1
        have hfs : entries_for e.1 e =
            [⟨message_direction.receive, e.1, e.2.2⟩,
             ⟨message_direction.send, e.2.1, e.2.2⟩] := by
          unfold entries_for
          rw [if_pos hst.symm, if_pos rfl]
          rfl
        have hzero : ∀ i, i < R → i ≠ e.1 → entries_for i e = [] := by
          intro i hi hne
          unfold entries_for
          rw [if_neg (fun hh => hne (by omega)), if_neg (fun hh => hne (by rw [← hh]))]
          rfl
        have hhead1 : (((List.range R).map
            (fun j => (e :: rest).flatMap (entries_for j))).getD e.1 []).head?
              = some ⟨message_direction.receive, e.1, e.2.2⟩ := by
          rw [hproj e.1 hsR, hfs]
          rfl
        apply CanDrain.self _ e.1 ⟨message_direction.receive, e.1, e.2.2⟩ hhead1 rfl
        have hcons1 : consume_head ((List.range R).map
            (fun j => (e :: rest).flatMap (entries_for j))) e.1 =
            ((List.range R).map (fun j => (e :: rest).flatMap (entries_for j))).set e.1
              ([⟨message_direction.send, e.2.1, e.2.2⟩] ++ rest.flatMap (entries_for e.1)) := by
          unfold consume_head
          rw [hproj e.1 hsR, hfs]
          rfl
        rw [hcons1]
        have hgd2 : (((List.range R).map
            (fun j => (e :: rest).flatMap (entries_for j))).set e.1
              ([⟨message_direction.send, e.2.1, e.2.2⟩] ++
                rest.flatMap (entries_for e.1))).getD e.1 [] =
            [⟨message_direction.send, e.2.1, e.2.2⟩] ++ rest.flatMap (entries_for e.1) := by
          apply getD_set_self
          rw [hlen]
          exact hsR
        apply CanDrain.self _ e.1 ⟨message_direction.send, e.2.1, e.2.2⟩
          (by rw [hgd2]; rfl) (by simpa using hst.symm)
        have hcons2 : consume_head (((List.range R).map
            (fun j => (e :: rest).flatMap (entries_for j))).set e.1
              ([⟨message_direction.send, e.2.1, e.2.2⟩] ++
                rest.flatMap (entries_for e.1))) e.1 =
            (List.range R).map (fun j => rest.flatMap (entries_for j)) := by
          unfold consume_head
          rw [hgd2, List.set_set]
          apply set_map_range_eq R _ _ e.1 _ hsR
          · intro i hi hne
            rw [List.flatMap_cons, hzero i hi hne, List.nil_append]
          · rfl
        rw [hcons2]
        exact ih (fun b hb => hok b (List.mem_cons_of_mem e hb))
      · -- distinct ranks: a matched rendezvous pair
        have hfs_s : entries_for e.1 e = [⟨message_direction.send, e.2.1, e.2.2⟩] := by
          unfold entries_for
          rw [if_neg (fun hh => hst hh.symm), if_pos rfl]
          rfl
        have hfs_r : entries_for e.2.1 e = [⟨message_direction.receive, e.1, e.2.2⟩] := by
          unfold entries_for
          rw [if_pos rfl, if_neg hst]
          rfl
        have hzero : ∀ i, i < R → i ≠ e.1 → i ≠ e.2.1 → entries_for i e = [] := by
          intro i hi hne1 hne2
          unfold entries_for
          rw [if_neg (fun hh => hne2 (by rw [← hh])), if_neg (fun hh => hne1 (by rw [← hh]))]
          rfl
        apply CanDrain.pair _ e.1 e.2.1 e.2.2 hst
          (by rw [hproj e.1 hsR, hfs_s]; rfl)
          (by rw [hproj e.2.1 hrR, hfs_r]; rfl)
        have hcons1 : consume_head ((List.range R).map
            (fun j => (e :: rest).flatMap (entries_for j))) e.1 =
            ((List.range R).map (fun j => (e :: rest).flatMap (entries_for j))).set e.1
              (rest.flatMap (entries_for e.1)) := by
          unfold consume_head
          rw [hproj e.1 hsR, hfs_s]
          rfl
        have hgd2 : (((List.range R).map
            (fun j => (e :: rest).flatMap (entries_for j))).set e.1
              (rest.flatMap (entries_for e.1))).getD e.2.1 [] =
            (e :: rest).flatMap (entries_for e.2.1) := by
          rw [getD_set_ne _ _ _ _ _ (fun hh => hst hh)]
          exact hproj e.2.1 hrR |>.trans (by rw [List.flatMap_cons])
        have hcons2 : consume_head (((List.range R).map
            (fun j => (e :: rest).flatMap (entries_for j))).set e.1
              (rest.flatMap (entries_for e.1))) e.2.1 =
            (List.range R).map (fun j => rest.flatMap (entries_for j)) := by
          unfold consume_head
          rw [hgd2, List.flatMap_cons, hfs_r, List.singleton_append, List.tail_cons]
          apply set2_map_range_eq R _ _ e.1 e.2.1 _ _ hsR hrR hst
          · intro i hi hne1 hne2
            rw [List.flatMap_cons, hzero i hi hne1 hne2, List.nil_append]
          · rfl
          · rfl
        rw [hcons1, hcons2]
        exact ih (fun b hb => hok b (List.mem_cons_of_mem e hb))

lemma dependencies_to_messages_normal (col_deps : List (List (Nat × grid_limits)))
    (rows cols : Nat) (hc : 0 < cols) (hlen : col_deps.length ≤ cols)
    (hkeys : ∀ l ∈ col_deps, ∀ p ∈ l, p.1 < rows) :
    dependencies_to_messages col_deps rows cols =
      (List.range (rows * cols)).map
        (fun i => (resolved_spec cols [] (d2m_iter col_deps rows)).flatMap
          (entries_for i)) ∧
    (∀ e' ∈ resolved_spec cols [] (d2m_iter col_deps rows),
      e'.1 < rows * cols ∧ e'.2.1 < rows * cols) := by
  have hiterb : ∀ e ∈ d2m_iter col_deps rows,
      e.1 < cols ∧ e.2.1 < rows ∧ e.2.2.1 < rows := by
    intro e he
    obtain ⟨c, rl, r, hcl, hrl, hr, rfl⟩ := (d2m_iter_mem col_deps rows e).mp he
    have hmem : col_deps.getD c [] ∈ col_deps := by
      rw [List.getD_eq_getElem _ _ hcl]
      exact List.getElem_mem hcl
    exact ⟨by omega, hkeys _ hmem rl hrl, hr⟩
  have hres_eq : resolve_senders cols (List.replicate rows 0) (d2m_iter col_deps rows)
      = resolved_spec cols [] (d2m_iter col_deps rows) := by
    apply resolve_senders_eq_spec cols hc
    · intro e he
      rw [List.length_replicate]
      exact (hiterb e he).2.1
    · intro row
      rw [getD_replicate]
      show 0 = wheel_count [] row % cols
      simp [wheel_count]
  have hresb : ∀ e' ∈ resolved_spec cols [] (d2m_iter col_deps rows),
      e'.1 < rows * cols ∧ e'.2.1 < rows * cols := by
    intro e' he'
    obtain ⟨e, he, hlim, hrecv, hsend⟩ :=
      resolved_spec_mem cols hc (d2m_iter col_deps rows) [] e' he'
    obtain ⟨hec, herow, her⟩ := hiterb e he
    have hrecvb : e'.2.1 < rows * cols := by
      rw [hrecv]
      exact mul_add_lt _ _ _ _ her hec
    rcases hsend with ⟨-, hs⟩ | ⟨-, w, hw, hs⟩
    · rw [hs]
      exact ⟨hrecvb, hrecvb⟩
    · exact ⟨by rw [hs]; exact mul_add_lt _ _ _ _ herow hw, hrecvb⟩
  refine ⟨?_, hresb⟩
  rw [dependencies_to_messages_eq_build, hres_eq]
  apply List.ext_getElem
  · simp [build_messages_length]
  · intro n h1 h2
    have hn : n < rows * cols := by simpa using h2
    have hx := build_messages_getD (rows * cols)
      (resolved_spec cols [] (d2m_iter col_deps rows))
      (List.replicate (rows * cols) [])
      (List.length_replicate _ _) hresb n hn
    rw [getD_replicate] at hx
    rw [← List.getD_eq_getElem _ [] h1, hx]
    simp

/-- Claim C3: replaying all ranks' message lists of `generate_messages`, in
their emitted order, under blocking rendezvous send/receive semantics (with
self-targeted messages served as local copies) terminates with every rank's
list fully consumed: at every step either a local copy is at the front, or
some pending send's matching receive is the next pending operation of its
partner rank (`CanDrain`). -/
theorem generate_messages_deadlock_free (plan : List (Nat × element_subgrid)) :
    CanDrain (generate_messages plan) := by
  have hgm : generate_messages plan =
      dependencies_to_messages
        (find_column_dependencies
          ((List.range (plan.length / get_num_subgrid_cols plan.length)).map
            (fun i => (plan_at plan (i * get_num_subgrid_cols plan.length)).row_stop))
          ((List.range (get_num_subgrid_cols plan.length)).map
            (fun i => (plan_at plan i).col_stop)))
        (plan.length / get_num_subgrid_cols plan.length)
        (get_num_subgrid_cols plan.length) := rfl
  obtain ⟨hl, hk, -⟩ := find_column_dependencies_structural
    ((List.range (plan.length / get_num_subgrid_cols plan.length)).map
      (fun i => (plan_at plan (i * get_num_subgrid_cols plan.length)).row_stop))
    ((List.range (get_num_subgrid_cols plan.length)).map
      (fun i => (plan_at plan i).col_stop))
  obtain ⟨hnorm, hbounds⟩ := dependencies_to_messages_normal
    (find_column_dependencies
      ((List.range (plan.length / get_num_subgrid_cols plan.length)).map
        (fun i => (plan_at plan (i * get_num_subgrid_cols plan.length)).row_stop))
      ((List.range (get_num_subgrid_cols plan.length)).map
        (fun i => (plan_at plan i).col_stop)))
    (plan.length / get_num_subgrid_cols plan.length)
    (get_num_subgrid_cols plan.length)
    (get_num_subgrid_cols_pos _)
    (by rw [hl]; simp)
    (fun l hlm p hp => by have := hk l hlm p hp; simpa using this)
  rw [hgm, hnorm]
  exact can_drain_projection _ _ hbounds

/-- Claim C7: for every `(column band, dependency row, receiving rank)`
assignment processed by `dependencies_to_messages`, if the receiver's own
subgrid-row equals the dependency row the emitted pair is same-rank
(sender = receiver); otherwise the sender is `row * num_cols + w` with
`w < num_cols` — a member of the dependency's row band — chosen by the
per-row round-robin counter, which starts at 0, advances once per receiving
rank served (`wheel_count` of the processed prefix) and wraps at the number
of subgrid columns. -/
theorem dependencies_to_messages_round_robin
    (col_deps : List (List (Nat × grid_limits))) (num_rows num_cols : Nat)
    (hc : 0 < num_cols)
    (hkeys : ∀ l ∈ col_deps, ∀ p ∈ l, p.1 < num_rows) :
    dependencies_to_messages col_deps num_rows num_cols =
      build_messages (List.replicate (num_rows * num_cols) [])
        (resolve_senders num_cols (List.replicate num_rows 0)
          (d2m_iter col_deps num_rows)) ∧
    (∀ k, k < (d2m_iter col_deps num_rows).length →
      ∀ c row r lim,
        (d2m_iter col_deps num_rows).getD k (0, 0, 0, ⟨0, 0⟩) = (c, row, r, lim) →
        ((resolve_senders num_cols (List.replicate num_rows 0)
            (d2m_iter col_deps num_rows)).getD k (0, 0, ⟨0, 0⟩) =
          (if row = r then r * num_cols + c
           else row * num_cols +
             wheel_count ((d2m_iter col_deps num_rows).take k) row % num_cols,
           r * num_cols + c, lim) ∧
         (row ≠ r →
           ∃ w, w < num_cols ∧
             (resolve_senders num_cols (List.replicate num_rows 0)
               (d2m_iter col_deps num_rows)).getD k (0, 0, ⟨0, 0⟩) =
             (row * num_cols + w, r * num_cols + c, lim)))) := by
  have hiterb : ∀ e ∈ d2m_iter col_deps num_rows, e.2.1 < num_rows := by
    intro e he
    obtain ⟨c, rl, r, hcl, hrl, hr, rfl⟩ := (d2m_iter_mem col_deps num_rows e).mp he
    have hmem : col_deps.getD c [] ∈ col_deps := by
      rw [List.getD_eq_getElem _ _ hcl]
      exact List.getElem_mem hcl
    exact hkeys _ hmem rl hrl
  have hres_eq : resolve_senders num_cols (List.replicate num_rows 0)
      (d2m_iter col_deps num_rows)
      = resolved_spec num_cols [] (d2m_iter col_deps num_rows) := by
    apply resolve_senders_eq_spec num_cols hc
    · intro e he
      rw [List.length_replicate]
      exact hiterb e he
    · intro row
      rw [getD_replicate]
      show 0 = wheel_count [] row % num_cols
      simp [wheel_count]
  refine ⟨dependencies_to_messages_eq_build col_deps num_rows num_cols, ?_⟩
  intro k hk c row r lim hgetk
  have h1 : (resolve_senders num_cols (List.replicate num_rows 0)
      (d2m_iter col_deps num_rows)).getD k (0, 0, ⟨0, 0⟩) =
      (if row = r then r * num_cols + c
       else row * num_cols +
         wheel_count ((d2m_iter col_deps num_rows).take k) row % num_cols,
       r * num_cols + c, lim) := by
    rw [hres_eq,
        resolved_spec_getD num_cols (d2m_iter col_deps num_rows) [] k hk, hgetk]
    simp only [List.nil_append]
  refine ⟨h1, ?_⟩
  intro hne
  refine ⟨wheel_count ((d2m_iter col_deps num_rows).take k) row % num_cols,
    Nat.mod_lt _ hc, ?_⟩
  rw [h1, if_neg hne]

/-- Witness for `dependencies_to_messages_round_robin` on a concrete
two-row, two-column dependency structure. -/
theorem dependencies_to_messages_round_robin_witness :
    (0 : Nat) < 2 ∧
    (∀ l ∈ [[((0 : Nat), grid_limits.mk 0 1)], [((1 : Nat), grid_limits.mk 2 3)]],
      ∀ p ∈ l, p.1 < 2) ∧
    (dependencies_to_messages [[(0, ⟨0, 1⟩)], [(1, ⟨2, 3⟩)]] 2 2 =
      build_messages (List.replicate (2 * 2) [])
        (resolve_senders 2 (List.replicate 2 0)
          (d2m_iter [[(0, ⟨0, 1⟩)], [(1, ⟨2, 3⟩)]] 2)) ∧
    (∀ k, k < (d2m_iter [[(0, ⟨0, 1⟩)], [(1, ⟨2, 3⟩)]] 2).length →
      ∀ c row r lim,
        (d2m_iter [[(0, ⟨0, 1⟩)], [(1, ⟨2, 3⟩)]] 2).getD k (0, 0, 0, ⟨0, 0⟩)
            = (c, row, r, lim) →
        ((resolve_senders 2 (List.replicate 2 0)
            (d2m_iter [[(0, ⟨0, 1⟩)], [(1, ⟨2, 3⟩)]] 2)).getD k (0, 0, ⟨0, 0⟩) =
          (if row = r then r * 2 + c
           else row * 2 +
             wheel_count ((d2m_iter [[(0, ⟨0, 1⟩)], [(1, ⟨2, 3⟩)]] 2).take k) row % 2,
           r * 2 + c, lim) ∧
         (row ≠ r →
           ∃ w, w < 2 ∧
             (resolve_senders 2 (List.replicate 2 0)
               (d2m_iter [[(0, ⟨0, 1⟩)], [(1, ⟨2, 3⟩)]] 2)).getD k (0, 0, ⟨0, 0⟩) =
             (row * 2 + w, r * 2 + c, lim))))) :=
  ⟨by decide, by decide,
   dependencies_to_messages_round_robin [[(0, ⟨0, 1⟩)], [(1, ⟨2, 3⟩)]] 2 2
     (by decide) (by decide)⟩

/- ----------------------------------------------------------------
   Claim C9: wavelet_to_realspace memory-budget assertion
   (src/transformations.cpp)
   ---------------------------------------------------------------- -/

/-- `kron_matrix_MB` from src/transformations.cpp: the dense-equivalent size
of the Kronecker product of matrices with the given `(nrows, ncols)` pairs —
product of row counts times product of column counts times `sizeof(P)`
(`psize`), converted to megabytes and truncated to `int`.  The `double`
factor `1e-6` is modelled as the exact rational; truncation toward zero of
the nonnegative value is `⌊·⌋`. -/
def kron_matrix_MB (psize : Nat) (dims : List (Nat × Nat)) : Int :=
  let r : Nat := (dims.map Prod.fst).prod
  let c : Nat := (dims.map Prod.snd).prod
  ⌊((r * c * psize : Nat) : ℚ) / 1000000⌋

/-- The element loop of `wavelet_to_realspace`, reduced to what claim C9 is
about: for each of the `n` table elements, in order, the assertion
`assert(kron_matrix_MB(kron_matrices) <= memory_limit_MB)` runs BEFORE
`recursive_kron` builds that element's product.  Returns how many
`recursive_kron` products were built and whether every assertion passed; a
failed assertion aborts with nothing further built (`assert` is fatal).
In the source the operand sizes are independent of the element index — the
view into `real_space_transform[j]` always has
`degree_j * 2^level_j` rows and `degree_j` columns; only its column offset
depends on the element — so a single `kron_MB` value is checked each time. -/
def w2r_loop (kron_MB limit : Int) : Nat → Nat × Bool
  | 0 => (0, true)
  | n + 1 =>
      if kron_MB ≤ limit then
        let rest := w2r_loop kron_MB limit n
        (rest.1 + 1, rest.2)
      else (0, false)

/-- The assertion behaviour of `wavelet_to_realspace` for a PDE with the given
per-dimension degrees and levels, `sizeof(P) = psize`, `N` table elements and
memory budget `memory_limit_MB`. -/
def wavelet_to_realspace_asserts (degrees levels : List Nat) (psize : Nat)
    (N : Nat) (memory_limit_MB : Nat) : Nat × Bool :=
  let kron_dims := List.zipWith (fun d l => (d * 2 ^ l, d)) degrees levels
  w2r_loop (kron_matrix_MB psize kron_dims) (memory_limit_MB : Int) N

lemma w2r_loop_spec (kron_MB limit : Int) :
    ∀ n : Nat, w2r_loop kron_MB limit n =
      if 0 < n ∧ ¬ kron_MB ≤ limit then (0, false) else (n, true) := by
  intro n
  induction n with
  | zero => simp [w2r_loop]
  | succ n ih =>
      by_cases h : kron_MB ≤ limit
      · rw [show w2r_loop kron_MB limit (n + 1)
            = ((w2r_loop kron_MB limit n).1 + 1, (w2r_loop kron_MB limit n).2) by
              simp [w2r_loop, if_pos h], ih]
        rw [if_neg (fun hcon => hcon.2 h), if_neg (fun hcon => hcon.2 h)]
      · rw [show w2r_loop kron_MB limit (n + 1) = (0, false) by
              simp [w2r_loop, if_neg h]]
        rw [if_pos ⟨Nat.succ_pos n, h⟩]

/-- Claim C9: in `wavelet_to_realspace`, for every table element the
dense-equivalent size of the final Kronecker product (`kron_matrix_MB`) is
checked against the caller's `memory_limit_MB` by an assertion before
`recursive_kron` builds any product: the run succeeds iff the table is empty
or the size fits the budget; exceeding the budget is fatal before any product
is built (result `(0, false)` — no recoverable error value); on success one
product is built per element. -/
theorem wavelet_to_realspace_budget_check (degrees levels : List Nat)
    (psize N limit : Nat) :
    ((wavelet_to_realspace_asserts degrees levels psize N limit).2 = true ↔
      (N = 0 ∨ kron_matrix_MB psize
        (List.zipWith (fun d l => (d * 2 ^ l, d)) degrees levels) ≤ (limit : Int))) ∧
    (¬ kron_matrix_MB psize
        (List.zipWith (fun d l => (d * 2 ^ l, d)) degrees levels) ≤ (limit : Int) →
      0 < N →
      wavelet_to_realspace_asserts degrees levels psize N limit = (0, false)) ∧
    ((wavelet_to_realspace_asserts degrees levels psize N limit).2 = true →
      (wavelet_to_realspace_asserts degrees levels psize N limit).1 = N) := by
  have hloop := w2r_loop_spec
    (kron_matrix_MB psize (List.zipWith (fun d l => (d * 2 ^ l, d)) degrees levels))
    (limit : Int) N
  have hdef : wavelet_to_realspace_asserts degrees levels psize N limit =
      w2r_loop
        (kron_matrix_MB psize (List.zipWith (fun d l => (d * 2 ^ l, d)) degrees levels))
        (limit : Int) N := rfl
  rw [hdef, hloop]
  by_cases h : kron_matrix_MB psize
      (List.zipWith (fun d l => (d * 2 ^ l, d)) degrees levels) ≤ (limit : Int)
  · rw [if_neg (fun hcon => hcon.2 h)]
    exact ⟨by simp [h], fun hcon => absurd h hcon, fun _ => rfl⟩
  · by_cases hN : 0 < N
    · rw [if_pos ⟨hN, h⟩]
      refine ⟨?_, fun _ _ => rfl, by simp⟩
      simp only [Bool.false_eq_true, false_iff]
      rintro (rfl | hle)
      · exact absurd hN (by omega)
      · exact h hle
    · rw [if_neg (fun hcon => hN hcon.1)]
      exact ⟨by simp [show N = 0 by omega], fun _ hcon => absurd hcon hN, fun _ => rfl⟩

/-- Witness for `wavelet_to_realspace_budget_check`: a 2-D degree-2, level-1
double-precision PDE with 3 elements and a 1 MB budget. -/
theorem wavelet_to_realspace_budget_check_witness :
    ((wavelet_to_realspace_asserts [2, 2] [1, 1] 8 3 1).2 = true ↔
      ((3 : Nat) = 0 ∨ kron_matrix_MB 8
        (List.zipWith (fun d l => (d * 2 ^ l, d)) [2, 2] [1, 1]) ≤ (1 : Int))) ∧
    (¬ kron_matrix_MB 8
        (List.zipWith (fun d l => (d * 2 ^ l, d)) [2, 2] [1, 1]) ≤ (1 : Int) →
      (0 : Nat) < 3 →
      wavelet_to_realspace_asserts [2, 2] [1, 1] 8 3 1 = (0, false)) ∧
    ((wavelet_to_realspace_asserts [2, 2] [1, 1] 8 3 1).2 = true →
      (wavelet_to_realspace_asserts [2, 2] [1, 1] 8 3 1).1 = 3) :=
  wavelet_to_realspace_budget_check [2, 2] [1, 1] 8 3 1
